import Mathlib

/-!
# remote-executer: handshake, dispatch and relay

A shallow embedding of `server/main.go` and `client/main.go`.

Go strings and byte slices are lists of byte values (`List Nat`, each value below 256).
The functions of the Go standard library the program calls (`encoding/json`, `bufio`,
`unicode/utf8`, `strings`, `os/exec`) are not part of the repository; they are modelled
here from their documented behaviour, each with a note, and the program's own functions
are translated on top of them.
-/

namespace RemoteExecuter

/-! ## Bytes and UTF-8 (`unicode/utf8`) -/

/-- Byte values of an ASCII text: how the ASCII string literals of the Go source are
written in this development. -/
def ascii (s : String) : List Nat := s.toList.map Char.toNat

/-- Go `utf8.RuneError`, U+FFFD. -/
def RuneError : Nat := 0xFFFD

/-- Go `utf8.DecodeRune` / `utf8.DecodeRuneInString`: the first rune of `p` and its width
in bytes. An empty input gives `(RuneError, 0)`, an ill-formed one `(RuneError, 1)`.
The lead byte selects the width and the range accepted for the second byte (Go's `first`
and `acceptRanges` tables); the masks `&0x1F`, `&0x0F`, `&0x07`, `&0x3F` and the shifts are
written as `%` and `*`. -/
def decodeRune : List Nat → Nat × Nat
  | [] => (RuneError, 0)
  | p0 :: rest =>
    if p0 < 0x80 then (p0, 1)
    else if p0 < 0xC2 then (RuneError, 1)
    else if p0 < 0xE0 then
      match rest with
      | b1 :: _ =>
        if 0x80 ≤ b1 ∧ b1 ≤ 0xBF then (p0 % 32 * 64 + b1 % 64, 2) else (RuneError, 1)
      | [] => (RuneError, 1)
    else if p0 < 0xF0 then
      match rest with
      | b1 :: b2 :: _ =>
        if (if p0 = 0xE0 then 0xA0 else 0x80) ≤ b1 ∧ b1 ≤ (if p0 = 0xED then 0x9F else 0xBF)
            ∧ 0x80 ≤ b2 ∧ b2 ≤ 0xBF then
          (p0 % 16 * 4096 + b1 % 64 * 64 + b2 % 64, 3)
        else (RuneError, 1)
      | _ => (RuneError, 1)
    else if p0 < 0xF5 then
      match rest with
      | b1 :: b2 :: b3 :: _ =>
        if (if p0 = 0xF0 then 0x90 else 0x80) ≤ b1 ∧ b1 ≤ (if p0 = 0xF4 then 0x8F else 0xBF)
            ∧ 0x80 ≤ b2 ∧ b2 ≤ 0xBF ∧ 0x80 ≤ b3 ∧ b3 ≤ 0xBF then
          (p0 % 8 * 262144 + b1 % 64 * 4096 + b2 % 64 * 64 + b3 % 64, 4)
        else (RuneError, 1)
      | _ => (RuneError, 1)
    else (RuneError, 1)

/-- Go `utf8.AppendRune` / `utf8.EncodeRune`: the UTF-8 encoding of rune `r`; a surrogate
or a value above U+10FFFF is encoded as U+FFFD. -/
def encodeRune (r : Nat) : List Nat :=
  if r ≤ 0x7F then [r]
  else if r ≤ 0x7FF then [0xC0 + r / 64, 0x80 + r % 64]
  else if 0x10FFFF < r ∨ (0xD800 ≤ r ∧ r ≤ 0xDFFF) then [0xEF, 0xBF, 0xBD]
  else if r ≤ 0xFFFF then [0xE0 + r / 4096, 0x80 + r / 64 % 64, 0x80 + r % 64]
  else [0xF0 + r / 262144, 0x80 + r / 4096 % 64, 0x80 + r / 64 % 64, 0x80 + r % 64]

/-- A Unicode scalar value: what a rune of well-formed text is. -/
def isScalar (r : Nat) : Prop := r < 0xD800 ∨ (0xDFFF < r ∧ r ≤ 0x10FFFF)

instance (r : Nat) : Decidable (isScalar r) := by unfold isScalar; infer_instance

/-- The UTF-8 encoding of a sequence of runes. -/
def utf8 (rs : List Nat) : List Nat := rs.flatMap encodeRune

/-- Well-formed UTF-8: the encoding of some sequence of Unicode scalar values. -/
def ValidUTF8 (s : List Nat) : Prop := ∃ rs : List Nat, (∀ r ∈ rs, isScalar r) ∧ s = utf8 rs

/-! ## The wire records -/

set_option linter.dupNamespace false in
/-- The handshake record `Command` of both programs (JSON keys `api_key`, `command`,
`terminal`). -/
structure Command where
  ApiKey : List Nat
  Command : List Nat
  Terminal : Bool
  deriving DecidableEq, Repr

/-- The structured reply `Response` (JSON keys `output`, `error`). -/
structure Response where
  Output : List Nat
  Error : List Nat
  deriving DecidableEq, Repr

/-! ## `encoding/json`: encoder -/

/-- The digit `"0123456789abcdef"[d]` of the encoder. -/
def hex (d : Nat) : Nat := if d < 10 then 0x30 + d else 0x57 + d

/-- Go `htmlSafeSet`: the ASCII bytes `json.Marshal` copies unescaped, all from 0x20 on
but `"`, `&`, `<`, `>` and `\`. -/
def htmlSafeSet (b : Nat) : Bool :=
  decide (0x20 ≤ b ∧ b < 0x80 ∧ b ≠ 0x22 ∧ b ≠ 0x26 ∧ b ≠ 0x3C ∧ b ≠ 0x3E ∧ b ≠ 0x5C)

/-- What the encoder writes for the ASCII byte `b` (`appendString`, `escapeHTML` set):
itself when safe, a two-character escape for `\`, `"`, backspace, form feed, newline,
carriage return and tab, and `\u00XX` for the other control characters and `<`, `>`, `&`. -/
def escapeByte (b : Nat) : List Nat :=
  if htmlSafeSet b then [b]
  else if b = 0x5C ∨ b = 0x22 then [0x5C, b]
  else if b = 0x08 then [0x5C, 0x62]
  else if b = 0x0C then [0x5C, 0x66]
  else if b = 0x0A then [0x5C, 0x6E]
  else if b = 0x0D then [0x5C, 0x72]
  else if b = 0x09 then [0x5C, 0x74]
  else [0x5C, 0x75, 0x30, 0x30, hex (b / 16), hex (b % 16)]

/-- The loop of Go `appendString` over the bytes still to encode; `fuel` bounds the
passes (every pass consumes at least one byte). Unescaped spans, which Go copies in one
piece, are emitted byte by byte. An ill-formed byte becomes the escape for U+FFFD,
U+2028 and U+2029 become their six-character escapes, any other multi-byte rune is
copied. -/
def appendStringLoop : Nat → List Nat → List Nat
  | 0, _ => []
  | _, [] => []
  | fuel + 1, b :: rest =>
    if b < 0x80 then escapeByte b ++ appendStringLoop fuel rest
    else
      let c := (decodeRune (b :: rest)).1
      let size := (decodeRune (b :: rest)).2
      if c = RuneError ∧ size = 1 then
        [0x5C, 0x75, 0x66, 0x66, 0x66, 0x64] ++ appendStringLoop fuel rest
      else if c = 0x2028 ∨ c = 0x2029 then
        [0x5C, 0x75, 0x32, 0x30, 0x32, hex (c % 16)]
          ++ appendStringLoop fuel ((b :: rest).drop size)
      else (b :: rest).take size ++ appendStringLoop fuel ((b :: rest).drop size)

/-- Go `appendString(dst, src, escapeHTML = true)`: the JSON string literal for `src`. -/
def appendString (src : List Nat) : List Nat :=
  0x22 :: appendStringLoop src.length src ++ [0x22]

/-- What the encoder writes for one rune of well-formed text: the escape of an ASCII
byte, the escape of U+2028 or U+2029, else the UTF-8 encoding of the rune. -/
def escapeRune (r : Nat) : List Nat :=
  if r < 0x80 then escapeByte r
  else if r = 0x2028 ∨ r = 0x2029 then [0x5C, 0x75, 0x32, 0x30, 0x32, hex (r % 16)]
  else encodeRune r

/-- The encoding `json.Marshal` gives a `Command`: its three fields in declaration order
under their JSON keys, without any white space. -/
def marshalCommand (c : Command) : List Nat :=
  ascii "\x7b\"api_key\":" ++ appendString c.ApiKey
    ++ ascii ",\"command\":" ++ appendString c.Command
    ++ ascii ",\"terminal\":" ++ ascii (if c.Terminal then "true" else "false")
    ++ ascii "\x7d"

/-- The encoding `json.Marshal` gives a `Response`. -/
def marshalResponse (r : Response) : List Nat :=
  ascii "\x7b\"output\":" ++ appendString r.Output
    ++ ascii ",\"error\":" ++ appendString r.Error ++ ascii "\x7d"

/-- The bytes `json.NewEncoder(w).Encode(r)` writes: the encoding followed by a newline. -/
def encodeResponse (r : Response) : List Nat := marshalResponse r ++ [0x0A]

/-! ## `encoding/json`: decoder

`json.Unmarshal` first checks that its input is one well-formed JSON value surrounded by
optional white space (`checkValid`), then stores the value into the target. The model
parses the text into a value (`none` for text the scanner rejects) and then assigns the
value to a `Command`. -/

/-- White space of the JSON scanner (`isSpace`): space, tab, carriage return, newline. -/
def isSpace (c : Nat) : Bool := c == 0x20 || c == 0x09 || c == 0x0D || c == 0x0A

/-- Skip leading white space. -/
def skipSpace : List Nat → List Nat
  | [] => []
  | c :: rest => if isSpace c then skipSpace rest else c :: rest

/-- Value of a hexadecimal digit, either case. -/
def hexVal (c : Nat) : Option Nat :=
  if 0x30 ≤ c ∧ c ≤ 0x39 then some (c - 0x30)
  else if 0x61 ≤ c ∧ c ≤ 0x66 then some (c - 0x57)
  else if 0x41 ≤ c ∧ c ≤ 0x46 then some (c - 0x37)
  else none

/-- Go `getu4`: the value of the escape backslash-u-XXXX at the head of `s`, `none`
(Go: -1) when `s` does not start with one. -/
def getu4 : List Nat → Option Nat
  | e :: u :: a :: b :: c :: d :: _ =>
    if e = 0x5C ∧ u = 0x75 then
      match hexVal a, hexVal b, hexVal c, hexVal d with
      | some x, some y, some z, some w => some (x * 4096 + y * 256 + z * 16 + w)
      | _, _, _, _ => none
    else none
  | _ => none

/-- Go `utf16.IsSurrogate`. -/
def isSurrogate (r : Nat) : Bool := decide (0xD800 ≤ r ∧ r < 0xE000)

/-- Go `utf16.DecodeRune` applied to an escape and the result of `getu4` on what follows:
the rune of a high and low surrogate pair, else U+FFFD. -/
def utf16DecodeRune (r1 : Nat) (r2 : Option Nat) : Nat :=
  match r2 with
  | some r2 =>
    if 0xD800 ≤ r1 ∧ r1 < 0xDC00 ∧ 0xDC00 ≤ r2 ∧ r2 < 0xE000 then
      (r1 - 0xD800) * 1024 + (r2 - 0xDC00) + 0x10000
    else RuneError
  | none => RuneError

/-- The byte a two-character escape stands for (the scanner's `stateInStringEsc`). -/
def unescape (e : Nat) : Option Nat :=
  if e = 0x22 ∨ e = 0x5C ∨ e = 0x2F then some e
  else if e = 0x62 then some 0x08
  else if e = 0x66 then some 0x0C
  else if e = 0x6E then some 0x0A
  else if e = 0x72 then some 0x0D
  else if e = 0x74 then some 0x09
  else none

/-- Put `pre` in front of the text of a decoded string. -/
def emit (pre : List Nat) (r : Option (List Nat × List Nat)) : Option (List Nat × List Nat) :=
  r.map fun p => (pre ++ p.1, p.2)

/-- A string literal after its opening quote: the decoded text and what follows the
closing quote (the scanner's string states together with `unquoteBytes`). A raw control
character, a bad escape or a missing closing quote gives `none`; an escaped surrogate
that is not followed by its low half, and an ill-formed byte, decode to U+FFFD. -/
def unquoteLoop : Nat → List Nat → Option (List Nat × List Nat)
  | 0, _ => none
  | _, [] => none
  | fuel + 1, c :: rest =>
    if c = 0x22 then some ([], rest)
    else if c = 0x5C then
      match rest with
      | [] => none
      | e :: rest1 =>
        if e = 0x75 then
          match getu4 (c :: rest) with
          | none => none
          | some rr =>
            if isSurrogate rr then
              if utf16DecodeRune rr (getu4 (rest1.drop 4)) ≠ RuneError then
                emit (encodeRune (utf16DecodeRune rr (getu4 (rest1.drop 4))))
                  (unquoteLoop fuel (rest1.drop 10))
              else emit (encodeRune RuneError) (unquoteLoop fuel (rest1.drop 4))
            else emit (encodeRune rr) (unquoteLoop fuel (rest1.drop 4))
        else
          match unescape e with
          | some b => emit [b] (unquoteLoop fuel rest1)
          | none => none
    else if c < 0x20 then none
    else if c < 0x80 then emit [c] (unquoteLoop fuel rest)
    else
      emit (encodeRune (decodeRune (c :: rest)).1)
        (unquoteLoop fuel ((c :: rest).drop (decodeRune (c :: rest)).2))

/-- A string literal after its opening quote. -/
def unquote (s : List Nat) : Option (List Nat × List Nat) := unquoteLoop (s.length + 1) s

/-- Strip the literal `lit` from the head of `s`. -/
def literal : List Nat → List Nat → Option (List Nat)
  | [], s => some s
  | _ :: _, [] => none
  | l :: ls, c :: s => if l = c then literal ls s else none

/-- Decimal digit. -/
def isDigit (c : Nat) : Bool := decide (0x30 ≤ c ∧ c ≤ 0x39)

/-- Skip leading digits. -/
def skipDigits : List Nat → List Nat
  | [] => []
  | c :: rest => if isDigit c then skipDigits rest else c :: rest

/-- The optional exponent of a number: `e` or `E`, an optional sign, one or more digits. -/
def scanExponent : List Nat → Option (List Nat)
  | [] => some []
  | c :: rest =>
    if c = 0x65 ∨ c = 0x45 then
      match (match rest with
             | [] => []
             | g :: rest1 => if g = 0x2B ∨ g = 0x2D then rest1 else g :: rest1) with
      | [] => none
      | d :: rest2 => if isDigit d then some (skipDigits rest2) else none
    else some (c :: rest)

/-- The optional fraction of a number, then its exponent. -/
def scanFraction : List Nat → Option (List Nat)
  | [] => some []
  | c :: rest =>
    if c = 0x2E then
      match rest with
      | [] => none
      | d :: rest1 => if isDigit d then scanExponent (skipDigits rest1) else none
    else scanExponent (c :: rest)

/-- A number whose first character (`-` or a digit) is at the head of `s`: what follows
it, `none` when the text is not a JSON number. -/
def scanNumber (s : List Nat) : Option (List Nat) :=
  match (match s with
         | [] => []
         | c :: rest => if c = 0x2D then rest else c :: rest) with
  | [] => none
  | d :: rest => if d = 0x30 then scanFraction rest
                 else if isDigit d then scanFraction (skipDigits rest)
                 else none

/-- A parsed JSON value. A number keeps no value: no field of the records is numeric. -/
inductive JSON where
  | null
  | bool (b : Bool)
  | number
  | string (s : List Nat)
  | array (items : List JSON)
  | object (members : List (List Nat × JSON))

/-- The scanner's `maxNestingDepth`. -/
def maxNestingDepth : Nat := 10000

mutual
/-- One JSON value at the head of `s` (white space already skipped), at nesting `depth`:
the value and what follows it. `fuel` bounds the chain of calls, each of which consumes
at least one byte before the next. -/
def parseValue : Nat → Nat → List Nat → Option (JSON × List Nat)
  | 0, _, _ => none
  | _ + 1, _, [] => none
  | fuel + 1, depth, c :: rest =>
    if c = 0x7B then
      if maxNestingDepth < depth + 1 then none
      else
        match skipSpace rest with
        | [] => none
        | d :: rest1 =>
          if d = 0x7D then some (JSON.object [], rest1)
          else (parseMembers fuel (depth + 1) (d :: rest1)).map fun r => (JSON.object r.1, r.2)
    else if c = 0x5B then
      if maxNestingDepth < depth + 1 then none
      else
        match skipSpace rest with
        | [] => none
        | d :: rest1 =>
          if d = 0x5D then some (JSON.array [], rest1)
          else (parseElements fuel (depth + 1) (d :: rest1)).map fun r => (JSON.array r.1, r.2)
    else if c = 0x22 then (unquote rest).map fun r => (JSON.string r.1, r.2)
    else if c = 0x74 then (literal (ascii "rue") rest).map fun r => (JSON.bool true, r)
    else if c = 0x66 then (literal (ascii "alse") rest).map fun r => (JSON.bool false, r)
    else if c = 0x6E then (literal (ascii "ull") rest).map fun r => (JSON.null, r)
    else if c = 0x2D ∨ isDigit c then (scanNumber (c :: rest)).map fun r => (JSON.number, r)
    else none
/-- The members of an object from the first key on (white space already skipped), up to
and including the closing brace. -/
def parseMembers : Nat → Nat → List Nat → Option (List (List Nat × JSON) × List Nat)
  | 0, _, _ => none
  | _ + 1, _, [] => none
  | fuel + 1, depth, q :: rest =>
    if q = 0x22 then
      match unquote rest with
      | none => none
      | some (key, rest1) =>
        match skipSpace rest1 with
        | [] => none
        | colon :: rest2 =>
          if colon = 0x3A then
            match parseValue fuel depth (skipSpace rest2) with
            | none => none
            | some (v, rest3) =>
              match skipSpace rest3 with
              | [] => none
              | sep :: rest4 =>
                if sep = 0x2C then
                  (parseMembers fuel depth (skipSpace rest4)).map fun r => ((key, v) :: r.1, r.2)
                else if sep = 0x7D then some ([(key, v)], rest4)
                else none
          else none
    else none
/-- The elements of an array from the first one on (white space already skipped), up to
and including the closing bracket. -/
def parseElements : Nat → Nat → List Nat → Option (List JSON × List Nat)
  | 0, _, _ => none
  | fuel + 1, depth, s =>
    match parseValue fuel depth s with
    | none => none
    | some (v, rest) =>
      match skipSpace rest with
      | [] => none
      | sep :: rest1 =>
        if sep = 0x2C then
          (parseElements fuel depth (skipSpace rest1)).map fun r => (v :: r.1, r.2)
        else if sep = 0x5D then some ([v], rest1)
        else none
end

/-- Go `checkValid` together with the scan of the value: the one JSON value `data` holds,
`none` when `data` is not exactly one value with optional white space around it. -/
def parseJSON (data : List Nat) : Option JSON :=
  match parseValue (2 * data.length + 2) 0 (skipSpace data) with
  | some (v, rest) => if skipSpace rest = [] then some v else none
  | none => none

/-- Case folding of an object key as `encoding/json` matches it against field names
(`bytes.EqualFold`): ASCII capitals fold to small letters, and the two non-ASCII runes
that fold to ASCII letters, the Kelvin sign U+212A and the long s U+017F, fold to `k`
and `s`. The field names of `Command` are in folded form already. -/
def foldName : List Nat → List Nat
  | [] => []
  | [c] => [if 0x41 ≤ c ∧ c ≤ 0x5A then c + 0x20 else c]
  | [c, d] =>
    if c = 0xC5 ∧ d = 0xBF then [0x73]
    else (if 0x41 ≤ c ∧ c ≤ 0x5A then c + 0x20 else c) :: foldName [d]
  | c :: d :: e :: rest =>
    if c = 0xE2 ∧ d = 0x84 ∧ e = 0xAA then 0x6B :: foldName rest
    else if c = 0xC5 ∧ d = 0xBF then 0x73 :: foldName (e :: rest)
    else (if 0x41 ≤ c ∧ c ≤ 0x5A then c + 0x20 else c) :: foldName (d :: e :: rest)

/-- Store the member `key: v` into the `Command` (`decodeState.object` for a struct
target): a key that matches no field is skipped, `null` leaves the field as it is, a
value of the wrong JSON type is an `UnmarshalTypeError` (`none`). -/
def setField (c : Command) (key : List Nat) (v : JSON) : Option Command :=
  if foldName key = ascii "api_key" then
    match v with
    | JSON.null => some c
    | JSON.string s => some { c with ApiKey := s }
    | _ => none
  else if foldName key = ascii "command" then
    match v with
    | JSON.null => some c
    | JSON.string s => some { c with Command := s }
    | _ => none
  else if foldName key = ascii "terminal" then
    match v with
    | JSON.null => some c
    | JSON.bool b => some { c with Terminal := b }
    | _ => none
  else some c

/-- Store the members of an object in order; a later member overrides an earlier one. -/
def setFields (c : Command) : List (List Nat × JSON) → Option Command
  | [] => some c
  | (key, v) :: rest =>
    match setField c key v with
    | none => none
    | some c1 => setFields c1 rest

/-- Go `json.Unmarshal(data, &cmd)` for a zero `cmd Command`: `some` record when it
returns a nil error, `none` when it returns an error. A JSON `null` leaves the record
zero; any other value that is not an object is an `UnmarshalTypeError`. -/
def Unmarshal (data : List Nat) : Option Command :=
  match parseJSON data with
  | some JSON.null => some ⟨[], [], false⟩
  | some (JSON.object members) => setFields ⟨[], [], false⟩ members
  | _ => none

/-! ## `net.Conn` and `bufio.Reader` -/

/-- The receive side of a connection, or the read side of the pseudo-terminal: the data
that successive arrivals bring, in order; when all of it has been read the next read
reports the end of the stream. -/
abbrev Stream := List (List Nat)

/-- All bytes a stream still holds. -/
def Stream.bytes (src : Stream) : List Nat := src.flatten

/-- The call `Read(buf)` with `len(buf) = n`: at most `n` bytes of what has arrived, and
the stream afterwards; `none` when it returns an error (here: the end of the stream). An
arrival without data delivers nothing. -/
def Stream.read (n : Nat) : Stream → Option (List Nat × Stream)
  | [] => none
  | seg :: rest =>
    if seg = [] then Stream.read n rest
    else if seg.length ≤ n then some (seg, rest)
    else some (seg.take n, seg.drop n :: rest)

/-- Split after the first occurrence of `delim` (`bytes.IndexByte`): the bytes through the
delimiter and the bytes after it. -/
def splitAfter (delim : Nat) : List Nat → Option (List Nat × List Nat)
  | [] => none
  | c :: rest =>
    if c = delim then some ([c], rest)
    else (splitAfter delim rest).map fun p => (c :: p.1, p.2)

/-- Size of the buffer `bufio.NewReader` allocates (`defaultBufSize`). -/
def defaultBufSize : Nat := 4096

/-- The loop of `bufio.Reader.ReadString` (`collectFragments` over `ReadSlice` and
`fill`). `got` is what has been read without meeting the delimiter, `used` how much of it
sits in the buffer; `fill` reads into the free part of the buffer, and a buffer that is
full without a delimiter is handed over whole and starts empty again. The result is the
line through the delimiter, the bytes read past it, which stay in the reader's buffer,
and the connection afterwards; `none` when a read fails before a delimiter is seen. -/
def readStringLoop (delim : Nat) :
    Nat → List Nat → Nat → Stream → Option (List Nat × List Nat × Stream)
  | 0, _, _, _ => none
  | fuel + 1, got, used, conn =>
    match Stream.read (defaultBufSize - used) conn with
    | none => none
    | some (chunk, conn1) =>
      match splitAfter delim chunk with
      | some (line, buffered) => some (got ++ line, buffered, conn1)
      | none =>
        readStringLoop delim fuel (got ++ chunk)
          (if defaultBufSize ≤ used + chunk.length then 0 else used + chunk.length) conn1

/-- The call `bufio.NewReader(conn).ReadString(delim)` on a fresh reader: every read
takes at least one byte, so the number of bytes pending bounds the passes. -/
def ReadString (delim : Nat) (conn : Stream) : Option (List Nat × List Nat × Stream) :=
  readStringLoop delim (conn.bytes.length + 1) [] 0 conn

/-! ## `strings` -/

/-- Go `strings.Contains(s, ":")`: whether the byte `:` occurs in `s`. -/
def containsColon (s : List Nat) : Bool := decide (0x3A ∈ s)

/-- Go `unicode.IsSpace`. -/
def unicodeIsSpace (r : Nat) : Bool :=
  decide ((0x09 ≤ r ∧ r ≤ 0x0D) ∨ r = 0x20 ∨ r = 0x85 ∨ r = 0xA0 ∨ r = 0x1680
    ∨ (0x2000 ≤ r ∧ r ≤ 0x200A) ∨ r = 0x2028 ∨ r = 0x2029 ∨ r = 0x202F ∨ r = 0x205F
    ∨ r = 0x3000)

/-- The runes of a Go string as `for _, r := range s` visits them, each with its bytes;
an ill-formed byte is visited as `RuneError` of width 1. -/
def runes : Nat → List Nat → List (Nat × List Nat)
  | 0, _ => []
  | _, [] => []
  | fuel + 1, b :: rest =>
    ((decodeRune (b :: rest)).1, (b :: rest).take (decodeRune (b :: rest)).2)
      :: runes fuel ((b :: rest).drop (decodeRune (b :: rest)).2)

/-- The string is empty or consists of white space runes only. -/
def isBlank (s : List Nat) : Bool := (runes s.length s).all fun p => unicodeIsSpace p.1

/-- Go `strings.TrimSpace`: `s` without its leading and trailing white space runes. -/
def TrimSpace (s : List Nat) : List Nat :=
  ((((runes s.length s).dropWhile fun p => unicodeIsSpace p.1).reverse.dropWhile
    fun p => unicodeIsSpace p.1).reverse.map fun p => p.2).flatten

/-- The loop of `strings.FieldsFunc`: `cur` is the field being collected. -/
def fieldsLoop : List (Nat × List Nat) → List Nat → List (List Nat)
  | [], cur => if cur = [] then [] else [cur]
  | p :: rest, cur =>
    if unicodeIsSpace p.1 then
      if cur = [] then fieldsLoop rest [] else cur :: fieldsLoop rest []
    else fieldsLoop rest (cur ++ p.2)

/-- Go `strings.Fields`: the maximal runs of runes of `s` that are not white space. -/
def Fields (s : List Nat) : List (List Nat) := fieldsLoop (runes s.length s) []

/-- The bytes of a run of runes. -/
def chunkBytes (t : List (Nat × List Nat)) : List Nat := (t.map fun p => p.2).flatten

/-- The runes `rs` are cut, in order and with nothing left over, into the leading gap
`gap0` and then each word of `words` followed by its own gap from `gaps`: every gap
holds white space runes only, every gap but the last is non-empty (two words are never
adjacent), and every word is non-empty and holds no white space rune. The words are so
the maximal runs of runes that are not white space, in the order they occur. -/
def SplitsInto (rs gap0 : List (Nat × List Nat)) (words gaps : List (List (Nat × List Nat))) :
    Prop :=
  rs = gap0 ++ (List.zipWith (fun t g => t ++ g) words gaps).flatten
    ∧ words.length = gaps.length
    ∧ (∀ p ∈ gap0, unicodeIsSpace p.1 = true)
    ∧ (∀ g ∈ gaps, ∀ p ∈ g, unicodeIsSpace p.1 = true)
    ∧ (∀ g ∈ gaps.dropLast, g ≠ [])
    ∧ (∀ t ∈ words, t ≠ [] ∧ ∀ p ∈ t, unicodeIsSpace p.1 = false)

/-! ## `os/exec` and the effects of the program -/

/-- The non-nil error of `cmd.CombinedOutput()`. -/
inductive ExecError where
  /-- The process ran and exited with a status other than 0 (`*exec.ExitError`). -/
  | exit (status : Nat)
  /-- Any other failure, with its text: the program could not be started, the process
  was killed when the deadline of the context passed, the output could not be read. -/
  | other (text : List Nat)
  deriving DecidableEq, Repr

/-- What `%v` prints for the error: `exit status N` for an exit status. -/
def ExecError.Error : ExecError → List Nat
  | ExecError.exit status => ascii "exit status " ++ ascii (toString status)
  | ExecError.other text => text

/-- What the program does to the outside, in order. Log output is not recorded. -/
inductive Effect where
  /-- Bytes handed to `conn.Write` (also through `fmt.Fprintf` and the JSON encoder). -/
  | connWrite (bytes : List Nat)
  /-- A process run to completion by `CombinedOutput`: program, arguments, and the
  environment when the code sets one (`none`: inherited). -/
  | run (name : List Nat) (args : List (List Nat)) (env : Option (List (List Nat)))
  /-- The call `pty.Start(exec.Command(shell))`. -/
  | ptyStart (shell : List Nat)
  /-- Bytes handed to `ptmx.Write`. -/
  | ptyWrite (bytes : List Nat)
  /-- The call `cmd.Process.Kill()`. -/
  | kill
  /-- The deferred `ptmx.Close()`. -/
  | ptyClose
  /-- The deferred `conn.Close()`. -/
  | connClose
  deriving DecidableEq, Repr

/-- What one relay loop meets on its passes: whether pass `i` finds `done` closed, and
whether the write of pass `i` returns an error. -/
structure LoopEnv where
  done : Nat → Bool
  writeFails : Nat → Bool

/-- The environment of a session. -/
structure World where
  /-- Value of `os.Getenv("SHELL")`. -/
  SHELL : List Nat
  /-- Whether `pty.Start` succeeds for the shell. -/
  ptyStarts : List Nat → Bool
  /-- Result of `CombinedOutput` for a program, its arguments and environment. -/
  CombinedOutput : List Nat → List (List Nat) → Option (List (List Nat)) →
    List Nat × Option ExecError
  /-- What the pseudo-terminal master delivers to `ptmx.Read`. -/
  ptyOutput : Stream
  /-- Passes of the connection-to-PTY loop. -/
  inbound : LoopEnv
  /-- Passes of the PTY-to-connection loop. -/
  outbound : LoopEnv

/-- The body both relay goroutines share,
`for { select { case <-done: return; default: n, err := src.Read(buffer); ...
dst.Write(buffer[:n]) } }` with a buffer of 1024 bytes: the effects of the loop from pass
`i` on. A read error or a write error kills the shell and ends the loop; a write that
fails delivers nothing that is counted. -/
def relay (env : LoopEnv) (write : List Nat → Effect) : Nat → Nat → Stream → List Effect
  | 0, _, _ => []
  | fuel + 1, i, src =>
    if env.done i then []
    else
      match Stream.read 1024 src with
      | none => [Effect.kill]
      | some (chunk, src1) =>
        if env.writeFails i then [Effect.kill]
        else write chunk :: relay env write fuel (i + 1) src1

/-- The bytes a trace writes to the pseudo-terminal, in order. -/
def ptyInput : List Effect → List Nat
  | [] => []
  | Effect.ptyWrite bytes :: rest => bytes ++ ptyInput rest
  | _ :: rest => ptyInput rest

/-- The bytes a trace writes to the connection, in order. -/
def connOutput : List Effect → List Nat
  | [] => []
  | Effect.connWrite bytes :: rest => bytes ++ connOutput rest
  | _ :: rest => connOutput rest

/-- Whether the effect starts an executor: a process run or a shell on a PTY. -/
def Effect.startsExecutor : Effect → Bool
  | Effect.run _ _ _ => true
  | Effect.ptyStart _ => true
  | _ => false

/-- An environment for examples: `SHELL` unset, the PTY starts, every process prints
nothing and exits with status 0, the pseudo-terminal prints a prompt, no loop finds
`done` closed or fails to write. -/
def World.quiet : World :=
  { SHELL := []
    ptyStarts := fun _ => true
    CombinedOutput := fun _ _ _ => ([], none)
    ptyOutput := [ascii "$ "]
    inbound := { done := fun _ => false, writeFails := fun _ => false }
    outbound := { done := fun _ => false, writeFails := fun _ => false } }

/-- An environment for examples in which every process prints `x` and a newline on its
output and exits with status 1. -/
def World.failing : World :=
  { World.quiet with CombinedOutput := fun _ _ _ => (ascii "x\n", some (ExecError.exit 1)) }

/-- Whether a handshake line is a JSON object without a member for the field `api_key`. -/
def lacksApiKey (message : List Nat) : Bool :=
  match parseJSON message with
  | some (JSON.object members) => members.all fun m => decide (foldName m.1 ≠ ascii "api_key")
  | _ => false

/-! ## `server/main.go` -/

namespace server

/-- Constant `SERVER_PORT`. -/
def SERVER_PORT : List Nat := ascii ":7107"

/-- Constant `API_KEY`. -/
def API_KEY : List Nat := ascii "your-secret-key-12345"

/-- Struct `Config` of the server. -/
structure Config where
  Port : List Nat
  APIKey : List Nat
  deriving DecidableEq, Repr

/-- Struct `Server`; the listener is not part of the model. -/
structure Server where
  config : Config
  deriving DecidableEq, Repr

/-- Function `NewServer`. -/
def NewServer (config : Config) : Server := { config := config }

/-- Method `handleSingleCommand`: run `sh -c command` under the 30 second deadline and
write either the captured output or, on an error, the error line followed by the output. -/
def Server.handleSingleCommand (_s : Server) (w : World) (command : List Nat) : List Effect :=
  let result := w.CombinedOutput (ascii "sh") [ascii "-c", command] none
  match result.2 with
  | some err =>
    [Effect.run (ascii "sh") [ascii "-c", command] none,
     Effect.connWrite (ascii "Error executing command: " ++ err.Error
       ++ ascii "\nOutput:\n" ++ result.1)]
  | none =>
    [Effect.run (ascii "sh") [ascii "-c", command] none, Effect.connWrite result.1]

/-- Method `handleTerminalSession`: start the shell on a pseudo-terminal and relay in
both directions. `conn` is the connection as the method receives it. The trace lists the
connection-to-PTY loop before the PTY-to-connection loop; the two run concurrently and
only the order within each is meant. The life of the `done` channel is modelled apart
(`teardownStep`); here each loop is told on which pass it finds `done` closed. -/
def Server.handleTerminalSession (_s : Server) (w : World) (conn : Stream) : List Effect :=
  let shell := if w.SHELL = [] then ascii "/bin/bash" else w.SHELL
  if w.ptyStarts shell then
    [Effect.ptyStart shell]
      ++ relay w.inbound Effect.ptyWrite (conn.bytes.length + 1) 0 conn
      ++ relay w.outbound Effect.connWrite (w.ptyOutput.bytes.length + 1) 0 w.ptyOutput
      ++ [Effect.ptyClose]
  else [Effect.ptyStart shell]

/-- Method `handleConnection`: read the handshake line through a buffered reader, decode
it, check the key, dispatch. The session receives the connection itself, not the
buffered reader. -/
def Server.handleConnection (s : Server) (w : World) (conn : Stream) : List Effect :=
  (match ReadString 0x0A conn with
   | none => []
   | some (message, _, conn1) =>
     match Unmarshal message with
     | none => [Effect.connWrite (encodeResponse ⟨[], ascii "Invalid command format"⟩)]
     | some cmd =>
       if cmd.ApiKey ≠ s.config.APIKey then
         [Effect.connWrite (encodeResponse ⟨[], ascii "Invalid API key"⟩)]
       else if cmd.Terminal then s.handleTerminalSession w conn1
       else s.handleSingleCommand w cmd.Command) ++ [Effect.connClose]

/-- What a call of `executeCommand` comes to. -/
inductive Executed where
  /-- It returns `(output, err)` after the effects; `err` is the text of a
  `fmt.Errorf` error or the error of the run. -/
  | returned (effects : List Effect) (output : List Nat) (err : Option ExecError)
  /-- A run-time panic: index out of range. -/
  | panicked
  deriving DecidableEq, Repr

/-- Method `executeCommand`, the executor no caller uses: refuse a blank command, else
run the first field with the other fields as arguments and an empty environment.
Indexing `parts[0]` of an empty slice panics. -/
def Server.executeCommand (_s : Server) (w : World) (command : List Nat) : Executed :=
  if TrimSpace command = [] then
    Executed.returned [] [] (some (ExecError.other (ascii "empty command")))
  else
    match Fields command with
    | [] => Executed.panicked
    | name :: args =>
      Executed.returned [Effect.run name args (some [])]
        (w.CombinedOutput name args (some [])).1 (w.CombinedOutput name args (some [])).2

/-! ### Teardown of an interactive session on the server

The life of the `done` channel in `handleTerminalSession`: the handler goroutine waits in
`cmd.Wait()` and closes `done` in a deferred call when it returns; the watcher goroutine
waits for a signal and then runs `close(done)` and `cmd.Process.Kill()`; the relay loops
kill the shell when their stream ends. The goroutines interleave freely: a schedule is
the list of their steps in the order they happen. Closing a closed channel panics, which
ends the process. -/

/-- State of a session's teardown. -/
structure Teardown where
  /-- How many times `close(done)` has run. -/
  closes : Nat
  /-- The shell has exited or has been killed. -/
  shellDead : Bool
  /-- Progress of the watcher goroutine: 0 waiting on `sigChan`, 1 signal received,
  2 after `close(done)`, 3 after `cmd.Process.Kill()`. -/
  watcher : Nat
  /-- The handler has returned from `cmd.Wait()` and run its deferred calls. -/
  returned : Bool
  /-- The process has ended through `os.Exit(0)` in `handleSignals`. -/
  exited : Bool
  deriving DecidableEq, Repr

/-- A step of one goroutine, or an event from outside. -/
inductive Step where
  /-- SIGINT or SIGTERM arrives: it is sent to `sigChan` of the session and to the
  channel of `handleSignals`. -/
  | signal
  /-- The watcher runs `close(done)`. -/
  | watcherClose
  /-- The watcher runs `cmd.Process.Kill()`. -/
  | watcherKill
  /-- The peer disconnects: the connection-to-PTY loop reads the end of the stream and
  kills the shell. -/
  | peerDisconnect
  /-- The shell exits by itself. -/
  | shellExit
  /-- The call `cmd.Wait()` returns and the handler runs its deferred `close(done)`. -/
  | handlerReturn
  /-- The goroutine `handleSignals` reaches `os.Exit(0)`. -/
  | processExit
  deriving DecidableEq, Repr

/-- The session as `handleTerminalSession` has set it up: shell running, `done` open. -/
def Teardown.start : Teardown :=
  { closes := 0, shellDead := false, watcher := 0, returned := false, exited := false }

/-- One step from a state, `none` when the step cannot happen there. Nothing happens
after the process has exited or has panicked on a second `close(done)`. -/
def teardownStep (t : Teardown) (e : Step) : Option Teardown :=
  if t.exited ∨ 2 ≤ t.closes then none
  else
    match e with
    | Step.signal => if t.watcher = 0 then some { t with watcher := 1 } else none
    | Step.watcherClose =>
      if t.watcher = 1 then some { t with watcher := 2, closes := t.closes + 1 } else none
    | Step.watcherKill =>
      if t.watcher = 2 then some { t with watcher := 3, shellDead := true } else none
    | Step.peerDisconnect => if t.returned then none else some { t with shellDead := true }
    | Step.shellExit => if t.returned then none else some { t with shellDead := true }
    | Step.handlerReturn =>
      if t.shellDead ∧ ¬ t.returned then
        some { t with returned := true, closes := t.closes + 1 }
      else none
    | Step.processExit => if 1 ≤ t.watcher then some { t with exited := true } else none

/-- Run a schedule from a state. -/
def teardownRun (t : Teardown) : List Step → Option Teardown
  | [] => some t
  | e :: rest =>
    match teardownStep t e with
    | none => none
    | some t1 => teardownRun t1 rest

end server

/-! ## `client/main.go` -/

namespace client

/-- Constant `DEFAULT_PORT`. -/
def DEFAULT_PORT : List Nat := ascii ":7107"

/-- Constant `API_KEY`. -/
def API_KEY : List Nat := ascii "your-secret-key-12345"

/-- Struct `Config` of the client; durations in nanoseconds. -/
structure Config where
  APIKey : List Nat
  ConnectTimeout : Nat
  RequestTimeout : Nat
  RetryAttempts : Nat
  RetryDelay : Nat
  deriving DecidableEq, Repr

/-- Struct `Client`. -/
structure Client where
  config : Config
  deriving DecidableEq, Repr

/-- Function `NewClient`. -/
def NewClient (config : Config) : Client := { config := config }

/-- The configuration `main` builds: the shipped key, 5 s to connect, 30 s per request,
3 attempts, 1 s between them. -/
def mainConfig : Config :=
  { APIKey := API_KEY, ConnectTimeout := 5000000000, RequestTimeout := 30000000000,
    RetryAttempts := 3, RetryDelay := 1000000000 }

/-- The start of a client call: the address given to `net.DialTimeout` and the bytes
written to the connection once it is open. -/
structure Opening where
  address : List Nat
  sent : List Nat
  deriving DecidableEq, Repr

/-- Method `executeCommand` up to the handshake: the address dialed, with the default
port appended when the argument has no colon, and the handshake line,
`fmt.Fprintf(conn, "%s\n", cmdJson)`. -/
def Client.executeCommand (c : Client) (server command : List Nat) : Opening :=
  { address := if ¬ containsColon server then server ++ DEFAULT_PORT else server
    sent := marshalCommand { ApiKey := c.config.APIKey, Command := command, Terminal := false }
      ++ [0x0A] }

/-- Method `startTerminalSession` up to the handshake. -/
def Client.startTerminalSession (c : Client) (server : List Nat) : Opening :=
  { address := if ¬ containsColon server then server ++ DEFAULT_PORT else server
    sent := marshalCommand { ApiKey := c.config.APIKey, Command := [], Terminal := true }
      ++ [0x0A] }

/-! ### Teardown of an interactive session on the client

The life of the `done` channel in `startTerminalSession`: the function itself runs the
loop from the connection to standard output and closes `done` in a deferred call when it
returns; the watcher goroutine waits for a signal and then runs `close(done)`, restores
the terminal and calls `os.Exit(0)`. -/

/-- State of the client's teardown. -/
structure Teardown where
  /-- How many times `close(done)` has run. -/
  closes : Nat
  /-- Progress of the watcher goroutine: 0 waiting on `sigChan`, 1 signal received,
  2 after `close(done)`. -/
  watcher : Nat
  /-- The output loop is inside `conn.Read` (otherwise it is at its `select`). -/
  reading : Bool
  /-- The function has returned and run its deferred calls. -/
  returned : Bool
  /-- The process has ended through `os.Exit(0)`. -/
  exited : Bool
  deriving DecidableEq, Repr

/-- A step of one goroutine, or an event from outside. -/
inductive Step where
  /-- SIGINT or SIGTERM arrives. -/
  | signal
  /-- The watcher runs `close(done)`. -/
  | watcherClose
  /-- The watcher restores the terminal and reaches `os.Exit(0)`. -/
  | watcherExit
  /-- The output loop passes its `select`: it returns when `done` is closed, else it
  calls `conn.Read`. -/
  | select
  /-- The pending `conn.Read` returns data, which is written to standard output. -/
  | readData
  /-- The pending `conn.Read` returns an error or the end of the stream (the peer has
  disconnected): the function returns. -/
  | readEnd
  deriving DecidableEq, Repr

/-- The session when the output loop is entered: `done` open, loop at its `select`. -/
def Teardown.start : Teardown :=
  { closes := 0, watcher := 0, reading := false, returned := false, exited := false }

/-- One step from a state, `none` when the step cannot happen there. Nothing happens
after the process has exited or has panicked on a second `close(done)`; a return of the
function runs its deferred `close(done)`. -/
def teardownStep (t : Teardown) (e : Step) : Option Teardown :=
  if t.exited ∨ 2 ≤ t.closes then none
  else
    match e with
    | Step.signal => if t.watcher = 0 then some { t with watcher := 1 } else none
    | Step.watcherClose =>
      if t.watcher = 1 then some { t with watcher := 2, closes := t.closes + 1 } else none
    | Step.watcherExit => if t.watcher = 2 then some { t with exited := true } else none
    | Step.select =>
      if t.returned ∨ t.reading then none
      else if t.watcher = 2 then some { t with returned := true, closes := t.closes + 1 }
      else some { t with reading := true }
    | Step.readData =>
      if t.reading ∧ ¬ t.returned then some { t with reading := false } else none
    | Step.readEnd =>
      if t.reading ∧ ¬ t.returned then
        some { t with reading := false, returned := true, closes := t.closes + 1 }
      else none

/-- Run a schedule from a state. -/
def teardownRun (t : Teardown) : List Step → Option Teardown
  | [] => some t
  | e :: rest =>
    match teardownStep t e with
    | none => none
    | some t1 => teardownRun t1 rest

end client

open server

/-! ## Facts about the encoder -/

theorem hex_ne_newline (d : Nat) : hex d ≠ 0x0A := by
  unfold hex; split <;> omega

theorem escapeByte_no_newline (b : Nat) : 0x0A ∉ escapeByte b := by
  have h1 := hex_ne_newline (b / 16)
  have h2 := hex_ne_newline (b % 16)
  unfold escapeByte htmlSafeSet
  split_ifs with c1 c2 c3 c4 c5 c6 c7
  · simp at c1; simp; omega
  · simp; omega
  all_goals simp
  exact ⟨fun h => h1 h.symm, fun h => h2 h.symm⟩

theorem decodeRune_take_high (p0 : Nat) (rest : List Nat) (h : 0x80 ≤ p0) :
    ∀ x ∈ (p0 :: rest).take (decodeRune (p0 :: rest)).2, 0x80 ≤ x := by
  match rest with
  | [] => simp only [decodeRune]; split_ifs <;> simp <;> omega
  | [b1] => simp only [decodeRune]; split_ifs <;> simp <;> omega
  | [b1, b2] => simp only [decodeRune]; split_ifs <;> simp <;> omega
  | b1 :: b2 :: b3 :: r => simp only [decodeRune]; split_ifs <;> simp <;> omega

theorem decodeRune_size_pos (p0 : Nat) (rest : List Nat) :
    1 ≤ (decodeRune (p0 :: rest)).2 := by
  match rest with
  | [] => simp only [decodeRune]; split_ifs <;> simp
  | [b1] => simp only [decodeRune]; split_ifs <;> simp
  | [b1, b2] => simp only [decodeRune]; split_ifs <;> simp
  | b1 :: b2 :: b3 :: r => simp only [decodeRune]; split_ifs <;> simp

theorem appendStringLoop_no_newline (fuel : Nat) :
    ∀ s : List Nat, 0x0A ∉ appendStringLoop fuel s := by
  induction fuel with
  | zero => intro s; simp [appendStringLoop]
  | succ n ih =>
    intro s
    cases s with
    | nil => simp [appendStringLoop]
    | cons b rest =>
      simp only [appendStringLoop]
      split_ifs with hb h1 h2
      · simp only [List.mem_append, not_or]
        exact ⟨escapeByte_no_newline b, ih rest⟩
      · have := ih rest
        simp [this]
      · have := ih ((b :: rest).drop (decodeRune (b :: rest)).2)
        have hx := hex_ne_newline ((decodeRune (b :: rest)).1 % 16)
        simp only [List.mem_append, not_or]
        refine ⟨?_, this⟩
        simp
        exact fun h => hx h.symm
      · have := ih ((b :: rest).drop (decodeRune (b :: rest)).2)
        simp only [List.mem_append, not_or]
        refine ⟨?_, this⟩
        intro hmem
        have := decodeRune_take_high b rest (by omega) _ hmem
        omega

theorem appendString_no_newline (s : List Nat) : 0x0A ∉ appendString s := by
  unfold appendString
  have := appendStringLoop_no_newline s.length s
  simp [this]

theorem marshalCommand_no_newline (c : Command) : 0x0A ∉ marshalCommand c := by
  unfold marshalCommand
  have h1 := appendString_no_newline c.ApiKey
  have h2 := appendString_no_newline c.Command
  simp only [List.mem_append, not_or]
  refine ⟨⟨⟨⟨⟨⟨?_, h1⟩, ?_⟩, h2⟩, ?_⟩, ?_⟩, ?_⟩
  · decide
  · decide
  · decide
  · cases c.Terminal <;> decide
  · decide

/-! ## UTF-8: decoding an encoded scalar value -/

theorem decodeRune_two (b0 b1 : Nat) (t : List Nat) (h0 : 0xC2 ≤ b0 ∧ b0 < 0xE0)
    (h1 : 0x80 ≤ b1 ∧ b1 ≤ 0xBF) :
    decodeRune (b0 :: b1 :: t) = (b0 % 32 * 64 + b1 % 64, 2) := by
  simp only [decodeRune]
  split_ifs <;> first | omega | rfl

theorem decodeRune_three (b0 b1 b2 : Nat) (t : List Nat) (h0 : 0xE0 ≤ b0 ∧ b0 < 0xF0)
    (h1 : 0x80 ≤ b1 ∧ b1 ≤ 0xBF) (h1a : b0 = 0xE0 → 0xA0 ≤ b1) (h1b : b0 = 0xED → b1 ≤ 0x9F)
    (h2 : 0x80 ≤ b2 ∧ b2 ≤ 0xBF) :
    decodeRune (b0 :: b1 :: b2 :: t) = (b0 % 16 * 4096 + b1 % 64 * 64 + b2 % 64, 3) := by
  simp only [decodeRune]
  split_ifs <;> first | omega | rfl

theorem decodeRune_four (b0 b1 b2 b3 : Nat) (t : List Nat) (h0 : 0xF0 ≤ b0 ∧ b0 < 0xF5)
    (h1 : 0x80 ≤ b1 ∧ b1 ≤ 0xBF) (h1a : b0 = 0xF0 → 0x90 ≤ b1) (h1b : b0 = 0xF4 → b1 ≤ 0x8F)
    (h2 : 0x80 ≤ b2 ∧ b2 ≤ 0xBF) (h3 : 0x80 ≤ b3 ∧ b3 ≤ 0xBF) :
    decodeRune (b0 :: b1 :: b2 :: b3 :: t)
      = (b0 % 8 * 262144 + b1 % 64 * 4096 + b2 % 64 * 64 + b3 % 64, 4) := by
  simp only [decodeRune]
  split_ifs <;> first | omega | rfl

theorem decodeRune_encodeRune (r : Nat) (t : List Nat) (hr : isScalar r) :
    decodeRune (encodeRune r ++ t) = (r, (encodeRune r).length) := by
  unfold isScalar at hr
  unfold encodeRune
  split_ifs with h1 h2 h3 h4
  · simp [decodeRune]; omega
  · simp only [List.cons_append, List.nil_append, List.length_cons, List.length_nil]
    rw [decodeRune_two _ _ _ (by omega) (by omega)]
    simp only [Prod.mk.injEq, and_true]
    omega
  · omega
  · simp only [List.cons_append, List.nil_append, List.length_cons, List.length_nil]
    rw [decodeRune_three _ _ _ _ (by omega) (by omega) (by omega) (by omega) (by omega)]
    simp only [Prod.mk.injEq, and_true]
    omega
  · simp only [List.cons_append, List.nil_append, List.length_cons, List.length_nil]
    rw [decodeRune_four _ _ _ _ _ (by omega) (by omega) (by omega) (by omega) (by omega)
      (by omega)]
    simp only [Prod.mk.injEq, and_true]
    omega

/-! ## The string literal of the encoder is read back by the decoder -/

theorem encodeRune_length_pos (r : Nat) : 1 ≤ (encodeRune r).length := by
  unfold encodeRune; split_ifs <;> simp

theorem encodeRune_high (r : Nat) (h : 0x80 ≤ r) :
    ∃ b bs, encodeRune r = b :: bs ∧ 0x80 ≤ b ∧ 1 ≤ bs.length := by
  unfold encodeRune
  split_ifs
  · omega
  · exact ⟨_, _, rfl, by omega, by simp⟩
  · exact ⟨_, _, rfl, by omega, by simp⟩
  · exact ⟨_, _, rfl, by omega, by simp⟩
  · exact ⟨_, _, rfl, by omega, by simp⟩

theorem appendStringLoop_cons (fuel b : Nat) (rest : List Nat) :
    appendStringLoop (fuel + 1) (b :: rest) =
      if b < 0x80 then escapeByte b ++ appendStringLoop fuel rest
      else if (decodeRune (b :: rest)).1 = RuneError ∧ (decodeRune (b :: rest)).2 = 1 then
        [0x5C, 0x75, 0x66, 0x66, 0x66, 0x64] ++ appendStringLoop fuel rest
      else if (decodeRune (b :: rest)).1 = 0x2028 ∨ (decodeRune (b :: rest)).1 = 0x2029 then
        [0x5C, 0x75, 0x32, 0x30, 0x32, hex ((decodeRune (b :: rest)).1 % 16)]
          ++ appendStringLoop fuel ((b :: rest).drop (decodeRune (b :: rest)).2)
      else (b :: rest).take (decodeRune (b :: rest)).2
        ++ appendStringLoop fuel ((b :: rest).drop (decodeRune (b :: rest)).2) := by
  rw [appendStringLoop]

theorem appendStringLoop_rune (fuel r : Nat) (s : List Nat) (hr : isScalar r) :
    appendStringLoop (fuel + 1) (encodeRune r ++ s) = escapeRune r ++ appendStringLoop fuel s := by
  by_cases h : r < 0x80
  · have : encodeRune r = [r] := by unfold encodeRune; simp; omega
    simp [this, appendStringLoop, escapeRune, h]
  · obtain ⟨b, bs, hb, hb1, hb2⟩ := encodeRune_high r (by omega)
    have hd := decodeRune_encodeRune r s hr
    rw [hb] at hd
    simp only [List.cons_append, List.length_cons] at hd
    have e1 : (b :: (bs ++ s)).take (bs.length + 1) = b :: bs := by simp
    have e2 : (b :: (bs ++ s)).drop (bs.length + 1) = s := by simp
    rw [hb, List.cons_append, appendStringLoop_cons, hd]
    simp only [e1, e2]
    rw [if_neg (by omega), if_neg (by omega)]
    simp only [escapeRune, h, if_false, hb]
    split_ifs <;> rfl

theorem appendStringLoop_utf8 (rs : List Nat) (hrs : ∀ r ∈ rs, isScalar r) :
    ∀ fuel, (utf8 rs).length ≤ fuel → appendStringLoop fuel (utf8 rs) = rs.flatMap escapeRune := by
  induction rs with
  | nil => intro fuel _; cases fuel <;> simp [utf8, appendStringLoop]
  | cons r rs ih =>
    intro fuel hfuel
    have hpos := encodeRune_length_pos r
    have hcons : utf8 (r :: rs) = encodeRune r ++ utf8 rs := by simp [utf8]
    rw [hcons] at hfuel ⊢
    simp only [List.length_append] at hfuel
    obtain ⟨n, rfl⟩ : ∃ n, fuel = n + 1 := ⟨fuel - 1, by omega⟩
    rw [appendStringLoop_rune n r _ (hrs r (by simp))]
    rw [ih (fun x hx => hrs x (by simp [hx])) n (by omega)]
    simp

theorem hexVal_hex (d : Nat) (h : d < 16) : hexVal (hex d) = some d := by
  unfold hex hexVal
  split_ifs <;> first | omega | simp

theorem escapeRune_length_pos (r : Nat) : 1 ≤ (escapeRune r).length := by
  have := encodeRune_length_pos r
  unfold escapeRune escapeByte
  split_ifs <;> first | omega | simp

theorem unquoteLoop_cons (fuel c : Nat) (rest : List Nat) :
    unquoteLoop (fuel + 1) (c :: rest) =
      if c = 0x22 then some ([], rest)
      else if c = 0x5C then
        match rest with
        | [] => none
        | e :: rest1 =>
          if e = 0x75 then
            match getu4 (c :: rest) with
            | none => none
            | some rr =>
              if isSurrogate rr then
                if utf16DecodeRune rr (getu4 (rest1.drop 4)) ≠ RuneError then
                  emit (encodeRune (utf16DecodeRune rr (getu4 (rest1.drop 4))))
                    (unquoteLoop fuel (rest1.drop 10))
                else emit (encodeRune RuneError) (unquoteLoop fuel (rest1.drop 4))
              else emit (encodeRune rr) (unquoteLoop fuel (rest1.drop 4))
          else
            match unescape e with
            | some b => emit [b] (unquoteLoop fuel rest1)
            | none => none
      else if c < 0x20 then none
      else if c < 0x80 then emit [c] (unquoteLoop fuel rest)
      else
        emit (encodeRune (decodeRune (c :: rest)).1)
          (unquoteLoop fuel ((c :: rest).drop (decodeRune (c :: rest)).2)) := by
  cases rest <;> rfl

theorem unquoteLoop_escape (fuel e b : Nat) (t : List Nat) (he : e ≠ 0x75)
    (hu : unescape e = some b) :
    unquoteLoop (fuel + 1) (0x5C :: e :: t) = emit [b] (unquoteLoop fuel t) := by
  rw [unquoteLoop_cons, if_neg (by omega), if_pos rfl]
  simp only [he, if_false, hu]

theorem unquoteLoop_u4 (fuel r : Nat) (a b c d : Nat) (t : List Nat)
    (hg : getu4 (0x5C :: 0x75 :: a :: b :: c :: d :: t) = some r) (hs : isSurrogate r = false) :
    unquoteLoop (fuel + 1) (0x5C :: 0x75 :: a :: b :: c :: d :: t)
      = emit (encodeRune r) (unquoteLoop fuel t) := by
  rw [unquoteLoop_cons, if_neg (by omega), if_pos rfl]
  simp only [if_true, hg, hs, Bool.false_eq_true, if_false, List.drop_succ_cons, List.drop_zero]

theorem unquoteLoop_rune (fuel r : Nat) (t : List Nat) (hr : isScalar r) :
    unquoteLoop (fuel + 1) (escapeRune r ++ t) = emit (encodeRune r) (unquoteLoop fuel t) := by
  have hx0 : hexVal 0x30 = some 0 := by decide
  have hx2 : hexVal 0x32 = some 2 := by decide
  by_cases h : r < 0x80
  · have henc : encodeRune r = [r] := by unfold encodeRune; simp; omega
    rw [henc]
    have h1 := hexVal_hex (r / 16) (by omega)
    have h2 := hexVal_hex (r % 16) (by omega)
    simp only [escapeRune, h, if_true, escapeByte, htmlSafeSet]
    split_ifs with c1 c2 c3 c4 c5 c6 c7
    · simp at c1
      simp only [List.cons_append, List.nil_append]
      rw [unquoteLoop_cons, if_neg (by omega), if_neg (by omega), if_neg (by omega),
        if_pos (by omega)]
    · simp only [List.cons_append, List.nil_append]
      exact unquoteLoop_escape fuel r r t (by omega) (by unfold unescape; rw [if_pos (by omega)])
    · subst c3; exact unquoteLoop_escape fuel _ _ t (by omega) (by decide)
    · subst c4; exact unquoteLoop_escape fuel _ _ t (by omega) (by decide)
    · subst c5; exact unquoteLoop_escape fuel _ _ t (by omega) (by decide)
    · subst c6; exact unquoteLoop_escape fuel _ _ t (by omega) (by decide)
    · subst c7; exact unquoteLoop_escape fuel _ _ t (by omega) (by decide)
    · simp only [List.cons_append, List.nil_append]
      have hg : getu4 (0x5C :: 0x75 :: 0x30 :: 0x30 :: hex (r / 16) :: hex (r % 16) :: t)
          = some r := by
        simp only [getu4, hx0, h1, h2]
        simp
        omega
      have hs : isSurrogate r = false := by unfold isSurrogate; simp; omega
      rw [unquoteLoop_u4 fuel r _ _ _ _ t hg hs, henc]
  · obtain ⟨b, bs, hb, hb1, hb2⟩ := encodeRune_high r (by omega)
    simp only [escapeRune, h, if_false]
    split_ifs with c
    · have h2 := hexVal_hex (r % 16) (by omega)
      simp only [List.cons_append, List.nil_append]
      have hg : getu4 (0x5C :: 0x75 :: 0x32 :: 0x30 :: 0x32 :: hex (r % 16) :: t) = some r := by
        simp only [getu4, hx0, hx2, h2]
        simp
        omega
      have hs : isSurrogate r = false := by unfold isSurrogate; simp; omega
      rw [unquoteLoop_u4 fuel r _ _ _ _ t hg hs]
    · have hd := decodeRune_encodeRune r t hr
      rw [hb] at hd
      simp only [List.cons_append, List.length_cons] at hd
      have e2 : (b :: (bs ++ t)).drop (bs.length + 1) = t := by simp
      rw [hb, List.cons_append, unquoteLoop_cons, hd]
      simp only [e2]
      rw [if_neg (by omega), if_neg (by omega), if_neg (by omega), if_neg (by omega), hb]

theorem unquoteLoop_runes (rs : List Nat) (hrs : ∀ r ∈ rs, isScalar r) (rest : List Nat) :
    ∀ fuel, rs.length + 1 ≤ fuel →
      unquoteLoop fuel (rs.flatMap escapeRune ++ 0x22 :: rest) = some (utf8 rs, rest) := by
  induction rs with
  | nil =>
    intro fuel hfuel
    obtain ⟨n, rfl⟩ : ∃ n, fuel = n + 1 := ⟨fuel - 1, by simp at hfuel; omega⟩
    simp [unquoteLoop, utf8]
  | cons r rs ih =>
    intro fuel hfuel
    simp only [List.length_cons] at hfuel
    obtain ⟨n, rfl⟩ : ∃ n, fuel = n + 1 := ⟨fuel - 1, by omega⟩
    simp only [List.flatMap_cons, List.append_assoc]
    rw [unquoteLoop_rune n r _ (hrs r (by simp))]
    rw [ih (fun x hx => hrs x (by simp [hx])) n (by omega)]
    simp [emit, utf8]

theorem flatMap_escapeRune_length (rs : List Nat) : rs.length ≤ (rs.flatMap escapeRune).length := by
  induction rs with
  | nil => simp
  | cons r rs ih =>
    have := escapeRune_length_pos r
    simp only [List.flatMap_cons, List.length_append, List.length_cons]
    omega

/-- The string literal the encoder writes for well-formed text, followed by anything, is
read back by the decoder as that text. -/
theorem unquote_appendString (s rest : List Nat) (hs : ValidUTF8 s) :
    ∃ body, appendString s ++ rest = 0x22 :: body ∧ unquote body = some (s, rest) := by
  obtain ⟨rs, hrs, rfl⟩ := hs
  refine ⟨rs.flatMap escapeRune ++ 0x22 :: rest, ?_, ?_⟩
  · unfold appendString
    rw [appendStringLoop_utf8 rs hrs _ (le_refl _)]
    simp
  · unfold unquote
    apply unquoteLoop_runes rs hrs
    have := flatMap_escapeRune_length rs
    simp only [List.length_append, List.length_cons]
    omega

/-! ## The handshake line is decoded to the record that was encoded -/

theorem skipSpace_cons (c : Nat) (rest : List Nat) (h : isSpace c = false) :
    skipSpace (c :: rest) = c :: rest := by
  simp [skipSpace, h]

theorem appendString_cons (s : List Nat) :
    appendString s = 0x22 :: (appendStringLoop s.length s ++ [0x22]) := rfl

theorem validUTF8_ascii_key :
    ValidUTF8 (ascii "api_key") ∧ ValidUTF8 (ascii "command") ∧ ValidUTF8 (ascii "terminal") := by
  refine ⟨⟨ascii "api_key", ?_, ?_⟩, ⟨ascii "command", ?_, ?_⟩, ⟨ascii "terminal", ?_, ?_⟩⟩ <;>
    decide

theorem parseValue_string (n d : Nat) (s rest : List Nat) (hs : ValidUTF8 s) :
    parseValue (n + 1) d (appendString s ++ rest) = some (JSON.string s, rest) := by
  obtain ⟨body, hbody, hun⟩ := unquote_appendString s rest hs
  rw [hbody, parseValue]
  simp [hun]

theorem parseValue_bool (n d : Nat) (b : Bool) (rest : List Nat) :
    parseValue (n + 1) d (ascii (if b then "true" else "false") ++ rest)
      = some (JSON.bool b, rest) := by
  cases b
  · have : ascii "false" = 0x66 :: ascii "alse" := by decide
    simp only [Bool.false_eq_true, if_false, this, List.cons_append]
    rw [parseValue]
    have : ascii "alse" = [0x61, 0x6C, 0x73, 0x65] := by decide
    simp [this, literal]
  · have : ascii "true" = 0x74 :: ascii "rue" := by decide
    simp only [if_true, this, List.cons_append]
    rw [parseValue]
    have : ascii "rue" = [0x72, 0x75, 0x65] := by decide
    simp [this, literal]

theorem parseMembers_key (n d : Nat) (key vt : List Nat) (hk : ValidUTF8 key) :
    parseMembers (n + 1) d (appendString key ++ 0x3A :: vt) =
      match parseValue n d (skipSpace vt) with
      | none => none
      | some (v, rest3) =>
        match skipSpace rest3 with
        | [] => none
        | sep :: rest4 =>
          if sep = 0x2C then
            (parseMembers n d (skipSpace rest4)).map fun r => ((key, v) :: r.1, r.2)
          else if sep = 0x7D then some ([(key, v)], rest4)
          else none := by
  obtain ⟨body, hbody, hun⟩ := unquote_appendString key (0x3A :: vt) hk
  rw [hbody, parseMembers]
  simp only [if_true, hun]
  rw [skipSpace_cons _ _ (by decide)]
  rfl

theorem parseMembers_string_comma (n d : Nat) (key v rest : List Nat) (hk : ValidUTF8 key)
    (hv : ValidUTF8 v) :
    parseMembers (n + 2) d (appendString key ++ 0x3A :: (appendString v ++ 0x2C :: rest)) =
      (parseMembers (n + 1) d (skipSpace rest)).map fun r => ((key, JSON.string v) :: r.1, r.2) := by
  rw [parseMembers_key (n + 1) d key _ hk]
  rw [appendString_cons v, List.cons_append, skipSpace_cons _ _ (by decide),
    ← List.cons_append, ← appendString_cons v, parseValue_string n d v _ hv]
  simp only
  rw [skipSpace_cons _ _ (by decide)]
  simp

theorem parseMembers_bool_end (n d : Nat) (key : List Nat) (b : Bool) (rest : List Nat)
    (hk : ValidUTF8 key) :
    parseMembers (n + 2) d
        (appendString key ++ 0x3A :: (ascii (if b then "true" else "false") ++ 0x7D :: rest)) =
      some ([(key, JSON.bool b)], rest) := by
  rw [parseMembers_key (n + 1) d key _ hk]
  have hsk : skipSpace (ascii (if b then "true" else "false") ++ 0x7D :: rest)
      = ascii (if b then "true" else "false") ++ 0x7D :: rest := by
    cases b
    · have : ascii "false" = 0x66 :: ascii "alse" := by decide
      simp only [Bool.false_eq_true, if_false, this, List.cons_append]
      exact skipSpace_cons _ _ (by decide)
    · have : ascii "true" = 0x74 :: ascii "rue" := by decide
      simp only [if_true, this, List.cons_append]
      exact skipSpace_cons _ _ (by decide)
  rw [hsk, parseValue_bool n d b]
  simp only
  rw [skipSpace_cons _ _ (by decide)]
  simp

theorem skipSpace_appendString (s rest : List Nat) :
    skipSpace (appendString s ++ rest) = appendString s ++ rest := by
  rw [appendString_cons, List.cons_append]
  exact skipSpace_cons _ _ (by decide)

theorem parseValue_object (n d : Nat) (key tail : List Nat) (hd : ¬ maxNestingDepth < d + 1) :
    parseValue (n + 1) d (0x7B :: (appendString key ++ tail)) =
      (parseMembers n (d + 1) (appendString key ++ tail)).map fun r => (JSON.object r.1, r.2) := by
  rw [parseValue, if_pos rfl, if_neg hd, skipSpace_appendString]
  rw [appendString_cons, List.cons_append]
  simp only [show ¬ ((0x22 : Nat) = 0x7D) by decide, if_false]

theorem marshalCommand_eq (c : Command) :
    marshalCommand c = 0x7B :: (appendString (ascii "api_key") ++ 0x3A :: (appendString c.ApiKey
      ++ 0x2C :: (appendString (ascii "command") ++ 0x3A :: (appendString c.Command
      ++ 0x2C :: (appendString (ascii "terminal") ++ 0x3A ::
        (ascii (if c.Terminal then "true" else "false") ++ 0x7D :: [])))))) := by
  have h1 : ascii "\x7b\"api_key\":" = 0x7B :: (appendString (ascii "api_key") ++ [0x3A]) := by
    decide
  have h2 : ascii ",\"command\":" = 0x2C :: (appendString (ascii "command") ++ [0x3A]) := by
    decide
  have h3 : ascii ",\"terminal\":" = 0x2C :: (appendString (ascii "terminal") ++ [0x3A]) := by
    decide
  have h4 : ascii "\x7d" = [0x7D] := by decide
  unfold marshalCommand
  rw [h1, h2, h3, h4]
  simp

theorem marshalCommand_length (c : Command) : 4 ≤ (marshalCommand c).length := by
  rw [marshalCommand_eq]
  simp [appendString]
  omega

/-- Decoding the encoding of a record of well-formed text gives the record back. -/
theorem Unmarshal_marshalCommand (c : Command) (hk : ValidUTF8 c.ApiKey)
    (hm : ValidUTF8 c.Command) : Unmarshal (marshalCommand c ++ [0x0A]) = some c := by
  obtain ⟨k1, k2, k3⟩ := validUTF8_ascii_key
  have hlen := marshalCommand_length c
  have hparse : parseJSON (marshalCommand c ++ [0x0A]) = some (JSON.object
      [(ascii "api_key", JSON.string c.ApiKey), (ascii "command", JSON.string c.Command),
       (ascii "terminal", JSON.bool c.Terminal)]) := by
    unfold parseJSON
    obtain ⟨n, hn⟩ : ∃ n, 2 * (marshalCommand c ++ [0x0A]).length + 2 = n + 5 :=
      ⟨2 * (marshalCommand c ++ [0x0A]).length - 3, by simp; omega⟩
    rw [hn, marshalCommand_eq]
    simp only [List.append_assoc, List.cons_append, List.nil_append]
    rw [skipSpace_cons _ _ (by decide), parseValue_object (n + 4) 0 _ _ (by decide)]
    rw [parseMembers_string_comma (n + 2) 1 _ _ _ k1 hk, skipSpace_appendString]
    rw [parseMembers_string_comma (n + 1) 1 _ _ _ k2 hm, skipSpace_appendString]
    rw [parseMembers_bool_end n 1 _ _ _ k3]
    simp [skipSpace, isSpace]
  unfold Unmarshal
  rw [hparse]
  have f1 : foldName (ascii "api_key") = ascii "api_key" := by decide
  have f2 : foldName (ascii "command") = ascii "command" := by decide
  have f3 : foldName (ascii "terminal") = ascii "terminal" := by decide
  have n1 : ascii "command" ≠ ascii "api_key" := by decide
  have n2 : ascii "terminal" ≠ ascii "api_key" := by decide
  have n3 : ascii "terminal" ≠ ascii "command" := by decide
  simp only [setFields]
  unfold setField
  simp only [f1, f2, f3, n1, n2, n3, if_true, if_false]

/-! ## The fuel of the encoder and of the decoder is enough

Each loop is given as many passes as its input has bytes (the parser twice as many);
the results below show that more fuel never changes a result. -/

theorem appendStringLoop_fuel (n : Nat) :
    ∀ (m : Nat) (s : List Nat), s.length ≤ n → s.length ≤ m →
      appendStringLoop n s = appendStringLoop m s := by
  induction n with
  | zero =>
    intro m s hn _
    have : s = [] := List.length_eq_zero.mp (by omega)
    subst this
    cases m <;> simp [appendStringLoop]
  | succ n ih =>
    intro m s hn hm
    cases s with
    | nil => cases m <;> simp [appendStringLoop]
    | cons b rest =>
      obtain ⟨k, rfl⟩ : ∃ k, m = k + 1 := ⟨m - 1, by simp at hm; omega⟩
      simp only [List.length_cons] at hn hm
      have hpos := decodeRune_size_pos b rest
      have hdrop : ((b :: rest).drop (decodeRune (b :: rest)).2).length ≤ rest.length := by
        simp only [List.length_drop, List.length_cons]; omega
      rw [appendStringLoop_cons, appendStringLoop_cons, ih k rest (by omega) (by omega),
        ih k _ (by omega) (by omega)]

theorem emit_some (pre : List Nat) (r : Option (List Nat × List Nat)) (t rest : List Nat)
    (h : emit pre r = some (t, rest)) : ∃ t1, r = some (t1, rest) := by
  unfold emit at h
  cases r with
  | none => simp at h
  | some p =>
    obtain ⟨a, b⟩ := p
    simp only [Option.map_some', Option.some.injEq, Prod.mk.injEq] at h
    exact ⟨a, by rw [h.2]⟩

theorem unquoteLoop_length (n : Nat) :
    ∀ (s t rest : List Nat), unquoteLoop n s = some (t, rest) → rest.length < s.length := by
  induction n with
  | zero => intro s t rest h; simp [unquoteLoop] at h
  | succ n ih =>
    intro s t rest h
    cases s with
    | nil => simp [unquoteLoop] at h
    | cons c r =>
      rw [unquoteLoop_cons] at h
      simp only [List.length_cons]
      split_ifs at h with h1 h2 h3 h4
      · simp only [Option.some.injEq, Prod.mk.injEq] at h
        rw [← h.2]; omega
      · cases r with
        | nil => simp at h
        | cons e r1 =>
          simp only at h
          split_ifs at h with h5
          · cases hg : getu4 (c :: e :: r1) with
            | none => rw [hg] at h; simp at h
            | some rr =>
              rw [hg] at h
              simp only at h
              split_ifs at h
              all_goals
                obtain ⟨t1, ht1⟩ := emit_some _ _ _ _ h
                have := ih _ _ _ ht1
                simp only [List.length_drop, List.length_cons] at this ⊢
                omega
          · cases hu : unescape e with
            | none => rw [hu] at h; simp at h
            | some b =>
              rw [hu] at h
              simp only at h
              obtain ⟨t1, ht1⟩ := emit_some _ _ _ _ h
              have := ih _ _ _ ht1
              simp only [List.length_cons]
              omega
      · obtain ⟨t1, ht1⟩ := emit_some _ _ _ _ h
        have := ih _ _ _ ht1
        omega
      · obtain ⟨t1, ht1⟩ := emit_some _ _ _ _ h
        have := ih _ _ _ ht1
        have hpos := decodeRune_size_pos c r
        simp only [List.length_drop, List.length_cons] at this
        omega

theorem unquoteLoop_fuel (n : Nat) :
    ∀ (m : Nat) (s : List Nat), s.length ≤ n → s.length ≤ m →
      unquoteLoop n s = unquoteLoop m s := by
  induction n with
  | zero =>
    intro m s hn _
    have : s = [] := List.length_eq_zero.mp (by omega)
    subst this
    cases m <;> simp [unquoteLoop]
  | succ n ih =>
    intro m s hn hm
    cases s with
    | nil => cases m <;> simp [unquoteLoop]
    | cons c r =>
      obtain ⟨k, rfl⟩ : ∃ k, m = k + 1 := ⟨m - 1, by simp at hm; omega⟩
      simp only [List.length_cons] at hn hm
      have hpos := decodeRune_size_pos c r
      have hdrop : ((c :: r).drop (decodeRune (c :: r)).2).length ≤ r.length := by
        simp only [List.length_drop, List.length_cons]; omega
      rw [unquoteLoop_cons, unquoteLoop_cons, ih k r (by omega) (by omega),
        ih k _ (by omega) (by omega)]
      cases r with
      | nil => rfl
      | cons e r1 =>
        simp only [List.length_cons] at hn hm
        simp only
        rw [ih k r1 (by omega) (by omega),
          ih k (r1.drop 4) (by simp only [List.length_drop]; omega)
            (by simp only [List.length_drop]; omega),
          ih k (r1.drop 10) (by simp only [List.length_drop]; omega)
            (by simp only [List.length_drop]; omega)]

theorem skipSpace_length (s : List Nat) : (skipSpace s).length ≤ s.length := by
  induction s with
  | nil => simp [skipSpace]
  | cons c rest ih =>
    rw [skipSpace]
    split_ifs
    · simp only [List.length_cons]; omega
    · exact le_refl _

theorem literal_length (l : List Nat) :
    ∀ (s r : List Nat), literal l s = some r → r.length ≤ s.length := by
  induction l with
  | nil => intro s r h; simp [literal] at h; rw [h]
  | cons a l ih =>
    intro s r h
    cases s with
    | nil => simp [literal] at h
    | cons c s =>
      rw [literal] at h
      split_ifs at h
      have := ih s r h
      simp only [List.length_cons]
      omega

theorem skipDigits_length (s : List Nat) : (skipDigits s).length ≤ s.length := by
  induction s with
  | nil => simp [skipDigits]
  | cons c rest ih =>
    rw [skipDigits]
    split_ifs
    · simp only [List.length_cons]; omega
    · exact le_refl _

theorem scanExponent_length (s r : List Nat) (h : scanExponent s = some r) :
    r.length ≤ s.length := by
  cases s with
  | nil => simp [scanExponent] at h; rw [← h]
  | cons c rest =>
    simp only [scanExponent] at h
    split_ifs at h with hc
    · cases rest with
      | nil => simp at h
      | cons g r1 =>
        simp only at h
        split_ifs at h with hg
        · cases r1 with
          | nil => simp at h
          | cons d r2 =>
            simp only at h
            split_ifs at h
            simp only [Option.some.injEq] at h
            have := skipDigits_length r2
            rw [← h]
            simp only [List.length_cons]
            omega
        · simp only at h
          split_ifs at h
          simp only [Option.some.injEq] at h
          have := skipDigits_length r1
          rw [← h]
          simp only [List.length_cons]
          omega
    · simp only [Option.some.injEq] at h
      rw [← h]

theorem scanFraction_length (s r : List Nat) (h : scanFraction s = some r) :
    r.length ≤ s.length := by
  cases s with
  | nil => simp [scanFraction] at h; rw [← h]
  | cons c rest =>
    simp only [scanFraction] at h
    split_ifs at h with hc
    · cases rest with
      | nil => simp at h
      | cons d r1 =>
        simp only at h
        split_ifs at h
        have h1 := scanExponent_length _ _ h
        have h2 := skipDigits_length r1
        simp only [List.length_cons]
        omega
    · exact scanExponent_length _ _ h

theorem scanNumber_length (c : Nat) (rest r : List Nat) (h : scanNumber (c :: rest) = some r) :
    r.length < (c :: rest).length := by
  unfold scanNumber at h
  simp only [List.length_cons]
  by_cases hc : c = 0x2D
  · simp only [hc, if_true] at h
    cases rest with
    | nil => simp at h
    | cons d r1 =>
      simp only at h
      split_ifs at h
      · have := scanFraction_length _ _ h
        simp only [List.length_cons]; omega
      · have := scanFraction_length _ _ h
        have := skipDigits_length r1
        simp only [List.length_cons]; omega
  · simp only [hc, if_false] at h
    split_ifs at h
    · have := scanFraction_length _ _ h
      omega
    · have := scanFraction_length _ _ h
      have := skipDigits_length rest
      omega

theorem unquote_length (s t rest : List Nat) (h : unquote s = some (t, rest)) :
    rest.length < s.length :=
  unquoteLoop_length _ s t rest h

theorem parseValue_cons (fuel depth c : Nat) (rest : List Nat) :
    parseValue (fuel + 1) depth (c :: rest) =
      if c = 0x7B then
        if maxNestingDepth < depth + 1 then none
        else
          match skipSpace rest with
          | [] => none
          | d :: rest1 =>
            if d = 0x7D then some (JSON.object [], rest1)
            else (parseMembers fuel (depth + 1) (d :: rest1)).map fun r => (JSON.object r.1, r.2)
      else if c = 0x5B then
        if maxNestingDepth < depth + 1 then none
        else
          match skipSpace rest with
          | [] => none
          | d :: rest1 =>
            if d = 0x5D then some (JSON.array [], rest1)
            else (parseElements fuel (depth + 1) (d :: rest1)).map fun r => (JSON.array r.1, r.2)
      else if c = 0x22 then (unquote rest).map fun r => (JSON.string r.1, r.2)
      else if c = 0x74 then (literal (ascii "rue") rest).map fun r => (JSON.bool true, r)
      else if c = 0x66 then (literal (ascii "alse") rest).map fun r => (JSON.bool false, r)
      else if c = 0x6E then (literal (ascii "ull") rest).map fun r => (JSON.null, r)
      else if c = 0x2D ∨ isDigit c then (scanNumber (c :: rest)).map fun r => (JSON.number, r)
      else none := by
  rfl

theorem parseMembers_cons (fuel depth q : Nat) (rest : List Nat) :
    parseMembers (fuel + 1) depth (q :: rest) =
      if q = 0x22 then
        match unquote rest with
        | none => none
        | some (key, rest1) =>
          match skipSpace rest1 with
          | [] => none
          | colon :: rest2 =>
            if colon = 0x3A then
              match parseValue fuel depth (skipSpace rest2) with
              | none => none
              | some (v, rest3) =>
                match skipSpace rest3 with
                | [] => none
                | sep :: rest4 =>
                  if sep = 0x2C then
                    (parseMembers fuel depth (skipSpace rest4)).map
                      fun r => ((key, v) :: r.1, r.2)
                  else if sep = 0x7D then some ([(key, v)], rest4)
                  else none
            else none
      else none := by
  rfl

theorem parseElements_succ (fuel depth : Nat) (s : List Nat) :
    parseElements (fuel + 1) depth s =
      match parseValue fuel depth s with
      | none => none
      | some (v, rest) =>
        match skipSpace rest with
        | [] => none
        | sep :: rest1 =>
          if sep = 0x2C then
            (parseElements fuel depth (skipSpace rest1)).map fun r => (v :: r.1, r.2)
          else if sep = 0x5D then some ([v], rest1)
          else none := by
  rfl

theorem skipSpace_cons_length (s : List Nat) (d : Nat) (rest1 : List Nat)
    (h : skipSpace s = d :: rest1) : rest1.length + 1 ≤ s.length := by
  have := skipSpace_length s
  rw [h] at this
  simpa using this

/-- Every parse consumes at least one byte. -/
theorem parse_length (n : Nat) :
    ∀ (d : Nat) (s : List Nat),
      (∀ v rest, parseValue n d s = some (v, rest) → rest.length < s.length)
      ∧ (∀ ms rest, parseMembers n d s = some (ms, rest) → rest.length < s.length)
      ∧ (∀ vs rest, parseElements n d s = some (vs, rest) → rest.length < s.length) := by
  induction n with
  | zero =>
    intro d s
    refine ⟨?_, ?_, ?_⟩ <;> intro a rest h
    · simp [parseValue] at h
    · simp [parseMembers] at h
    · simp [parseElements] at h
  | succ n ih =>
    intro d s
    refine ⟨?_, ?_, ?_⟩
    · intro v rest h
      cases s with
      | nil => simp [parseValue] at h
      | cons c r =>
        rw [parseValue_cons] at h
        simp only [List.length_cons]
        split_ifs at h with h1 h2 h3 h4 h5 h6 h7 h8 h9
        · cases hs : skipSpace r with
          | nil => rw [hs] at h; simp at h
          | cons d1 r1 =>
            have hl := skipSpace_cons_length r d1 r1 hs
            rw [hs] at h
            simp only at h
            split_ifs at h
            · simp only [Option.some.injEq, Prod.mk.injEq] at h
              rw [← h.2]; omega
            · simp only [Option.map_eq_some', Prod.mk.injEq] at h
              obtain ⟨⟨ms, r2⟩, hm, _, rfl⟩ := h
              have := (ih (d + 1) (d1 :: r1)).2.1 ms r2 hm
              simp only [List.length_cons] at *
              omega
        · cases hs : skipSpace r with
          | nil => rw [hs] at h; simp at h
          | cons d1 r1 =>
            have hl := skipSpace_cons_length r d1 r1 hs
            rw [hs] at h
            simp only at h
            split_ifs at h
            · simp only [Option.some.injEq, Prod.mk.injEq] at h
              rw [← h.2]; omega
            · simp only [Option.map_eq_some', Prod.mk.injEq] at h
              obtain ⟨⟨ms, r2⟩, hm, _, rfl⟩ := h
              have := (ih (d + 1) (d1 :: r1)).2.2 ms r2 hm
              simp only [List.length_cons] at *
              omega
        · simp only [Option.map_eq_some', Prod.mk.injEq] at h
          obtain ⟨⟨t, r2⟩, hu, _, rfl⟩ := h
          have := unquote_length _ _ _ hu
          simp only [List.length_cons] at *
          omega
        · simp only [Option.map_eq_some', Prod.mk.injEq] at h
          obtain ⟨r2, hu, _, rfl⟩ := h
          have := literal_length _ _ _ hu
          simp only [List.length_cons] at *
          omega
        · simp only [Option.map_eq_some', Prod.mk.injEq] at h
          obtain ⟨r2, hu, _, rfl⟩ := h
          have := literal_length _ _ _ hu
          simp only [List.length_cons] at *
          omega
        · simp only [Option.map_eq_some', Prod.mk.injEq] at h
          obtain ⟨r2, hu, _, rfl⟩ := h
          have := literal_length _ _ _ hu
          simp only [List.length_cons] at *
          omega
        · simp only [Option.map_eq_some', Prod.mk.injEq] at h
          obtain ⟨r2, hu, _, rfl⟩ := h
          have := scanNumber_length _ _ _ hu
          simp only [List.length_cons] at *
          omega
    · intro ms rest h
      cases s with
      | nil => simp [parseMembers] at h
      | cons q r =>
        rw [parseMembers_cons] at h
        simp only [List.length_cons]
        split_ifs at h with hq
        cases hu : unquote r with
        | none => rw [hu] at h; simp at h
        | some kr =>
          obtain ⟨key, r1⟩ := kr
          have l1 := unquote_length _ _ _ hu
          rw [hu] at h
          simp only at h
          cases hs : skipSpace r1 with
          | nil => rw [hs] at h; simp at h
          | cons colon r2 =>
            have l2 := skipSpace_cons_length _ _ _ hs
            rw [hs] at h
            simp only at h
            split_ifs at h with hc
            cases hv : parseValue n d (skipSpace r2) with
            | none => rw [hv] at h; simp at h
            | some vr =>
              obtain ⟨v, r3⟩ := vr
              have l3 := (ih d (skipSpace r2)).1 v r3 hv
              have l3a := skipSpace_length r2
              rw [hv] at h
              simp only at h
              cases hs3 : skipSpace r3 with
              | nil => rw [hs3] at h; simp at h
              | cons sep r4 =>
                have l4 := skipSpace_cons_length _ _ _ hs3
                rw [hs3] at h
                simp only at h
                split_ifs at h
                · simp only [Option.map_eq_some', Prod.mk.injEq] at h
                  obtain ⟨⟨ms1, r5⟩, hm, _, rfl⟩ := h
                  have l5 := (ih d (skipSpace r4)).2.1 ms1 r5 hm
                  have l5a := skipSpace_length r4
                  simp only [List.length_cons] at *
                  omega
                · simp only [Option.some.injEq, Prod.mk.injEq] at h
                  rw [← h.2]; omega
    · intro vs rest h
      rw [parseElements_succ] at h
      cases hv : parseValue n d s with
      | none => rw [hv] at h; simp at h
      | some vr =>
        obtain ⟨v, r3⟩ := vr
        have l3 := (ih d s).1 v r3 hv
        rw [hv] at h
        simp only at h
        cases hs3 : skipSpace r3 with
        | nil => rw [hs3] at h; simp at h
        | cons sep r4 =>
          have l4 := skipSpace_cons_length _ _ _ hs3
          rw [hs3] at h
          simp only at h
          split_ifs at h
          · simp only [Option.map_eq_some', Prod.mk.injEq] at h
            obtain ⟨⟨ms1, r5⟩, hm, _, rfl⟩ := h
            have l5 := (ih d (skipSpace r4)).2.2 ms1 r5 hm
            have l5a := skipSpace_length r4
            simp only [List.length_cons] at *
            omega
          · simp only [Option.some.injEq, Prod.mk.injEq] at h
            rw [← h.2]; omega

/-- More fuel than twice the length of the input never changes the result of a parse. -/
theorem parse_fuel (n : Nat) :
    ∀ (m d : Nat) (s : List Nat),
      (2 * s.length + 1 ≤ n → 2 * s.length + 1 ≤ m → parseValue n d s = parseValue m d s)
      ∧ (2 * s.length + 2 ≤ n → 2 * s.length + 2 ≤ m →
          parseMembers n d s = parseMembers m d s)
      ∧ (2 * s.length + 2 ≤ n → 2 * s.length + 2 ≤ m →
          parseElements n d s = parseElements m d s) := by
  induction n with
  | zero =>
    intro m d s
    refine ⟨?_, ?_, ?_⟩ <;> intro h <;> omega
  | succ n ih =>
    intro m d s
    refine ⟨?_, ?_, ?_⟩
    · intro hn hm
      obtain ⟨k, rfl⟩ : ∃ k, m = k + 1 := ⟨m - 1, by omega⟩
      cases s with
      | nil => simp [parseValue]
      | cons c r =>
        simp only [List.length_cons] at hn hm
        rw [parseValue_cons, parseValue_cons]
        cases hs : skipSpace r with
        | nil => rfl
        | cons d1 r1 =>
          have hl := skipSpace_cons_length r d1 r1 hs
          simp only
          rw [(ih k (d + 1) (d1 :: r1)).2.1 (by simp only [List.length_cons]; omega)
              (by simp only [List.length_cons]; omega),
            (ih k (d + 1) (d1 :: r1)).2.2 (by simp only [List.length_cons]; omega)
              (by simp only [List.length_cons]; omega)]
    · intro hn hm
      obtain ⟨k, rfl⟩ : ∃ k, m = k + 1 := ⟨m - 1, by omega⟩
      cases s with
      | nil => simp [parseMembers]
      | cons q r =>
        simp only [List.length_cons] at hn hm
        rw [parseMembers_cons, parseMembers_cons]
        by_cases hq : q = 0x22
        · simp only [hq, if_true]
          cases hu : unquote r with
          | none => rfl
          | some kr =>
            obtain ⟨key, r1⟩ := kr
            have l1 := unquote_length _ _ _ hu
            simp only
            cases hs : skipSpace r1 with
            | nil => rfl
            | cons colon r2 =>
              have l2 := skipSpace_cons_length _ _ _ hs
              simp only
              by_cases hc : colon = 0x3A
              · simp only [hc, if_true]
                have l3a := skipSpace_length r2
                rw [(ih k d (skipSpace r2)).1 (by omega) (by omega)]
                cases hv : parseValue k d (skipSpace r2) with
                | none => rfl
                | some vr =>
                  obtain ⟨v, r3⟩ := vr
                  have l3 := (parse_length k d (skipSpace r2)).1 v r3 hv
                  simp only
                  cases hs3 : skipSpace r3 with
                  | nil => rfl
                  | cons sep r4 =>
                    have l4 := skipSpace_cons_length _ _ _ hs3
                    have l5a := skipSpace_length r4
                    simp only
                    rw [(ih k d (skipSpace r4)).2.1 (by omega) (by omega)]
              · simp only [hc, if_false]
        · simp only [hq, if_false]
    · intro hn hm
      obtain ⟨k, rfl⟩ : ∃ k, m = k + 1 := ⟨m - 1, by omega⟩
      rw [parseElements_succ, parseElements_succ]
      rw [(ih k d s).1 (by omega) (by omega)]
      cases hv : parseValue k d s with
      | none => rfl
      | some vr =>
        obtain ⟨v, r3⟩ := vr
        have l3 := (parse_length k d s).1 v r3 hv
        simp only
        cases hs3 : skipSpace r3 with
        | nil => rfl
        | cons sep r4 =>
          have l4 := skipSpace_cons_length _ _ _ hs3
          have l5a := skipSpace_length r4
          simp only
          rw [(ih k d (skipSpace r4)).2.2 (by omega) (by omega)]

/-- The result of `parseJSON` is the result with any larger fuel. -/
theorem parseJSON_fuel (data : List Nat) (n : Nat) (h : 2 * data.length + 2 ≤ n) :
    parseJSON data =
      match parseValue n 0 (skipSpace data) with
      | some (v, rest) => if skipSpace rest = [] then some v else none
      | none => none := by
  have hl := skipSpace_length data
  have e := (parse_fuel (2 * data.length + 2) n 0 (skipSpace data)).1 (by omega) (by omega)
  unfold parseJSON
  exact congrArg (fun r : Option (JSON × List Nat) =>
    match r with
    | some (v, rest) => if skipSpace rest = [] then some v else none
    | none => none) e

/-! ## Reads from a stream and the buffered reader -/

theorem Stream.read_none (n : Nat) (conn : Stream) (h : Stream.read n conn = none) :
    conn.bytes = [] := by
  induction conn with
  | nil => rfl
  | cons seg rest ih =>
    rw [Stream.read] at h
    split_ifs at h with h1 h2
    · subst h1
      simpa [Stream.bytes] using ih h

theorem Stream.read_some (n : Nat) (conn : Stream) (chunk : List Nat) (conn1 : Stream)
    (h : Stream.read n conn = some (chunk, conn1)) :
    chunk ++ conn1.bytes = conn.bytes ∧ chunk.length ≤ n ∧ (0 < n → chunk ≠ []) := by
  induction conn with
  | nil => simp [Stream.read] at h
  | cons seg rest ih =>
    rw [Stream.read] at h
    split_ifs at h with h1 h2
    · subst h1
      simpa [Stream.bytes] using ih h
    · simp only [Option.some.injEq, Prod.mk.injEq] at h
      obtain ⟨rfl, rfl⟩ := h
      exact ⟨by simp [Stream.bytes], h2, fun _ => h1⟩
    · simp only [Option.some.injEq, Prod.mk.injEq] at h
      obtain ⟨rfl, rfl⟩ := h
      refine ⟨by simp [Stream.bytes, ← List.append_assoc], by simp, fun hn => ?_⟩
      cases seg with
      | nil => exact absurd rfl h1
      | cons a t =>
        obtain ⟨m, rfl⟩ : ∃ m, n = m + 1 := ⟨n - 1, by omega⟩
        simp

theorem splitAfter_none (delim : Nat) (s : List Nat) (h : splitAfter delim s = none) :
    delim ∉ s := by
  induction s with
  | nil => simp
  | cons c rest ih =>
    rw [splitAfter] at h
    split_ifs at h with hc
    simp only [Option.map_eq_none'] at h
    simp only [List.mem_cons, not_or]
    exact ⟨fun e => hc e.symm, ih h⟩

theorem splitAfter_some (delim : Nat) (s line after : List Nat)
    (h : splitAfter delim s = some (line, after)) :
    ∃ p, line = p ++ [delim] ∧ delim ∉ p ∧ s = p ++ delim :: after := by
  induction s generalizing line with
  | nil => simp [splitAfter] at h
  | cons c rest ih =>
    rw [splitAfter] at h
    split_ifs at h with hc
    · simp only [Option.some.injEq, Prod.mk.injEq] at h
      obtain ⟨rfl, rfl⟩ := h
      exact ⟨[], by simp [hc], by simp, by simp [hc]⟩
    · simp only [Option.map_eq_some', Prod.mk.injEq] at h
      obtain ⟨⟨l, a⟩, hla, rfl, rfl⟩ := h
      obtain ⟨p, rfl, hp, rfl⟩ := ih l hla
      exact ⟨c :: p, by simp, by simp [hp]; exact fun e => hc e.symm, by simp⟩

/-- The first occurrence of a byte determines the split around it. -/
theorem first_split_unique (delim : Nat) (p x pre post : List Nat) (hp : delim ∉ p)
    (hpre : delim ∉ pre) (h : p ++ delim :: x = pre ++ delim :: post) : p = pre ∧ x = post := by
  induction p generalizing pre with
  | nil =>
    cases pre with
    | nil => simpa using h
    | cons a t =>
      simp only [List.nil_append, List.cons_append, List.cons.injEq] at h
      simp only [List.mem_cons, not_or] at hpre
      exact absurd h.1 hpre.1
  | cons a t ih =>
    cases pre with
    | nil =>
      simp only [List.nil_append, List.cons_append, List.cons.injEq] at h
      simp only [List.mem_cons, not_or] at hp
      exact absurd h.1.symm hp.1
    | cons b u =>
      simp only [List.cons_append, List.cons.injEq] at h
      simp only [List.mem_cons, not_or] at hp hpre
      obtain ⟨rfl, hx⟩ := ih u hp.2 hpre.2 h.2
      exact ⟨by rw [h.1], hx⟩

/-- A chunk without the delimiter at the head of a text lies before the first delimiter. -/
theorem chunk_before_delim (delim : Nat) (chunk rest pre post : List Nat) (hc : delim ∉ chunk)
    (h : chunk ++ rest = pre ++ delim :: post) :
    ∃ pre1, pre = chunk ++ pre1 ∧ rest = pre1 ++ delim :: post := by
  induction chunk generalizing pre with
  | nil => exact ⟨pre, by simp, by simpa using h⟩
  | cons a t ih =>
    simp only [List.mem_cons, not_or] at hc
    cases pre with
    | nil =>
      simp only [List.nil_append, List.cons_append, List.cons.injEq] at h
      exact absurd h.1.symm hc.1
    | cons b u =>
      simp only [List.cons_append, List.cons.injEq] at h
      obtain ⟨pre1, rfl, hr⟩ := ih u hc.2 h.2
      exact ⟨pre1, by rw [h.1]; simp, hr⟩

theorem readStringLoop_spec (delim : Nat) (post : List Nat) :
    ∀ (fuel : Nat) (got : List Nat) (used : Nat) (conn : Stream) (pre : List Nat),
      used < defaultBufSize → delim ∉ pre → conn.bytes = pre ++ delim :: post →
      pre.length + 1 ≤ fuel →
      ∃ buffered conn1, readStringLoop delim fuel got used conn
          = some (got ++ pre ++ [delim], buffered, conn1) ∧ buffered ++ conn1.bytes = post := by
  intro fuel
  induction fuel with
  | zero => intro got used conn pre _ _ _ hf; omega
  | succ n ih =>
    intro got used conn pre hused hpre hbytes hf
    rw [readStringLoop]
    cases hread : Stream.read (defaultBufSize - used) conn with
    | none =>
      have := Stream.read_none _ _ hread
      rw [this] at hbytes
      simp at hbytes
    | some r =>
      obtain ⟨chunk, conn1⟩ := r
      obtain ⟨hcat, _, hne⟩ := Stream.read_some _ _ _ _ hread
      have hne := hne (by omega)
      simp only
      cases hsplit : splitAfter delim chunk with
      | some la =>
        obtain ⟨line, after⟩ := la
        obtain ⟨p, rfl, hp, rfl⟩ := splitAfter_some _ _ _ _ hsplit
        rw [← hcat] at hbytes
        simp only [List.append_assoc, List.cons_append] at hbytes
        obtain ⟨rfl, hx⟩ := first_split_unique delim p _ pre post hp hpre hbytes
        exact ⟨after, conn1, by simp, hx⟩
      | none =>
        have hc := splitAfter_none _ _ hsplit
        rw [← hcat] at hbytes
        obtain ⟨pre1, rfl, hrest⟩ := chunk_before_delim delim chunk _ pre post hc hbytes
        have hlen : 1 ≤ chunk.length := by
          cases chunk with
          | nil => exact absurd rfl hne
          | cons a t => simp
        obtain ⟨buffered, conn2, h1, h2⟩ := ih (got ++ chunk)
          (if defaultBufSize ≤ used + chunk.length then 0 else used + chunk.length) conn1 pre1
          (by split_ifs <;> simp only [defaultBufSize] at * <;> omega)
          (fun hm => hpre (by simp [hm])) hrest
          (by simp only [List.length_append] at hf; omega)
        exact ⟨buffered, conn2, by simp only [h1, List.append_assoc], h2⟩

/-- On a stream whose bytes are `pre`, the delimiter, then `post`, with no delimiter in
`pre`, `ReadString` returns `pre` with the delimiter, however the bytes arrive; what it
read past the delimiter and what the stream still holds make up `post`. -/
theorem ReadString_spec (delim : Nat) (conn : Stream) (pre post : List Nat) (hpre : delim ∉ pre)
    (hbytes : conn.bytes = pre ++ delim :: post) :
    ∃ buffered conn1, ReadString delim conn = some (pre ++ [delim], buffered, conn1)
      ∧ buffered ++ conn1.bytes = post := by
  unfold ReadString
  have := readStringLoop_spec delim post (conn.bytes.length + 1) [] 0 conn pre
    (by decide) hpre hbytes (by rw [hbytes]; simp)
  simpa using this

/-! ## The handshake on the server -/

theorem handleConnection_eq (s : Server) (w : World) (conn : Stream) (message buffered : List Nat)
    (conn1 : Stream) (hread : ReadString 0x0A conn = some (message, buffered, conn1)) :
    Server.handleConnection s w conn =
      (match Unmarshal message with
       | none => [Effect.connWrite (encodeResponse ⟨[], ascii "Invalid command format"⟩)]
       | some cmd =>
         if cmd.ApiKey ≠ s.config.APIKey then
           [Effect.connWrite (encodeResponse ⟨[], ascii "Invalid API key"⟩)]
         else if cmd.Terminal then s.handleTerminalSession w conn1
         else s.handleSingleCommand w cmd.Command) ++ [Effect.connClose] := by
  simp only [Server.handleConnection, hread]

theorem setField_keeps_key (c c1 : Command) (key : List Nat) (v : JSON)
    (hkey : foldName key ≠ ascii "api_key") (h : setField c key v = some c1) :
    c1.ApiKey = c.ApiKey := by
  unfold setField at h
  rw [if_neg hkey] at h
  split_ifs at h
  · cases v <;> simp at h <;> subst h <;> rfl
  · cases v <;> simp at h <;> subst h <;> rfl
  · simp at h; subst h; rfl

theorem setFields_keeps_key (members : List (List Nat × JSON)) :
    ∀ (c c1 : Command), (∀ m ∈ members, foldName m.1 ≠ ascii "api_key") →
      setFields c members = some c1 → c1.ApiKey = c.ApiKey := by
  induction members with
  | nil => intro c c1 _ h; simp [setFields] at h; subst h; rfl
  | cons m rest ih =>
    intro c c1 hm h
    obtain ⟨key, v⟩ := m
    rw [setFields] at h
    cases hs : setField c key v with
    | none => rw [hs] at h; simp at h
    | some c2 =>
      rw [hs] at h
      simp only at h
      rw [ih c2 c1 (fun x hx => hm x (by simp [hx])) h]
      exact setField_keeps_key c c2 key v (hm (key, v) (by simp)) hs

/-- A line without an `api_key` member decodes to a record with an empty `ApiKey`. -/
theorem lacksApiKey_empty (message : List Nat) (cmd : Command)
    (hl : lacksApiKey message = true) (hd : Unmarshal message = some cmd) : cmd.ApiKey = [] := by
  unfold lacksApiKey at hl
  unfold Unmarshal at hd
  cases hp : parseJSON message with
  | none => rw [hp] at hl; simp at hl
  | some v =>
    rw [hp] at hl hd
    cases v with
    | object members =>
      simp only [List.all_eq_true, decide_eq_true_eq] at hl
      exact setFields_keeps_key members _ cmd hl hd
    | _ => simp at hl

theorem relay_effects (env : LoopEnv) (write : List Nat → Effect) :
    ∀ (fuel i : Nat) (src : Stream), ∀ e ∈ relay env write fuel i src,
      e = Effect.kill ∨ ∃ chunk, e = write chunk := by
  intro fuel
  induction fuel with
  | zero => intro i src e he; simp [relay] at he
  | succ n ih =>
    intro i src e he
    rw [relay] at he
    by_cases hdone : env.done i = true
    · simp [hdone] at he
    · cases hr : Stream.read 1024 src with
      | none => simp [hdone, hr] at he; exact Or.inl he
      | some r =>
        obtain ⟨chunk, src1⟩ := r
        by_cases hw : env.writeFails i = true
        · simp [hdone, hr, hw] at he; exact Or.inl he
        · simp only [hdone, hr, hw, Bool.false_eq_true, if_false, List.mem_cons] at he
          rcases he with rfl | he
          · exact Or.inr ⟨chunk, rfl⟩
          · exact ih _ _ _ he

theorem relay_no_executor (env : LoopEnv) (fuel i : Nat) (src : Stream) :
    (relay env Effect.ptyWrite fuel i src).filter Effect.startsExecutor = []
      ∧ (relay env Effect.connWrite fuel i src).filter Effect.startsExecutor = [] := by
  constructor
  · rw [List.filter_eq_nil_iff]
    intro e he
    rcases relay_effects env _ fuel i src e he with rfl | ⟨c, rfl⟩ <;> simp [Effect.startsExecutor]
  · rw [List.filter_eq_nil_iff]
    intro e he
    rcases relay_effects env _ fuel i src e he with rfl | ⟨c, rfl⟩ <;> simp [Effect.startsExecutor]

theorem handleTerminalSession_executor (s : Server) (w : World) (conn : Stream) :
    (s.handleTerminalSession w conn).filter Effect.startsExecutor
      = [Effect.ptyStart (if w.SHELL = [] then ascii "/bin/bash" else w.SHELL)] := by
  unfold Server.handleTerminalSession
  generalize (if w.SHELL = [] then ascii "/bin/bash" else w.SHELL) = shell
  simp only
  by_cases hp : w.ptyStarts shell = true
  · simp only [hp, if_true, List.filter_append, (relay_no_executor _ _ _ _).1,
      (relay_no_executor _ _ _ _).2]
    simp [Effect.startsExecutor]
  · simp [hp, Effect.startsExecutor]

theorem invalidKey_bytes :
    encodeResponse ⟨[], ascii "Invalid API key"⟩
      = ascii "\x7b\"output\":\"\",\"error\":\"Invalid API key\"\x7d\n" := by decide

theorem invalidFormat_bytes :
    encodeResponse ⟨[], ascii "Invalid command format"⟩
      = ascii "\x7b\"output\":\"\",\"error\":\"Invalid command format\"\x7d\n" := by decide

/-- C1, as stated, fails: with an empty configured secret, the line
`{"command":"id"}`, which decodes as a handshake record and has no `api_key`, is not
answered with the authentication failure: the batch executor runs `id`. -/
theorem C1_absent_key_counterexample :
    ¬ (∀ (s : Server) (w : World) (conn : Stream) (message buffered : List Nat) (conn1 : Stream)
        (cmd : Command), ReadString 0x0A conn = some (message, buffered, conn1) →
        Unmarshal message = some cmd →
        (lacksApiKey message = true ∨ cmd.ApiKey ≠ s.config.APIKey) →
        Server.handleConnection s w conn
          = [Effect.connWrite (ascii "\x7b\"output\":\"\",\"error\":\"Invalid API key\"\x7d\n"),
             Effect.connClose]) := by
  intro h
  have := h (NewServer ⟨SERVER_PORT, []⟩) World.quiet [ascii "\x7b\"command\":\"id\"\x7d\n"]
    (ascii "\x7b\"command\":\"id\"\x7d\n") [] [] ⟨[], ascii "id", false⟩ (by decide) (by decide)
    (Or.inl (by decide))
  revert this
  decide

/-- C1, amended: for every configured secret and every handshake line that decodes to a
record whose `ApiKey` differs from the configured secret, and also for every line without
an `api_key` member when the configured secret is not empty, `handleConnection` writes
`{"output":"","error":"Invalid API key"}` and a newline, closes the connection and starts
no executor, whatever the `command` and `terminal` fields are. -/
theorem C1_invalid_key_rejected (s : Server) (w : World) (conn : Stream)
    (message buffered : List Nat) (conn1 : Stream) (cmd : Command)
    (hread : ReadString 0x0A conn = some (message, buffered, conn1))
    (hdec : Unmarshal message = some cmd)
    (hkey : cmd.ApiKey ≠ s.config.APIKey
      ∨ (lacksApiKey message = true ∧ s.config.APIKey ≠ [])) :
    Server.handleConnection s w conn
        = [Effect.connWrite (ascii "\x7b\"output\":\"\",\"error\":\"Invalid API key\"\x7d\n"),
           Effect.connClose]
      ∧ (Server.handleConnection s w conn).filter Effect.startsExecutor = [] := by
  have hne : cmd.ApiKey ≠ s.config.APIKey := by
    rcases hkey with h | ⟨h1, h2⟩
    · exact h
    · rw [lacksApiKey_empty message cmd h1 hdec]
      exact fun e => h2 e.symm
  have heq := handleConnection_eq s w conn message buffered conn1 hread
  rw [hdec] at heq
  simp only [hne, ne_eq, not_false_eq_true, if_true, invalidKey_bytes] at heq
  rw [heq]
  exact ⟨rfl, by simp [Effect.startsExecutor]⟩

/-- C1, witness: the line `{"api_key":"wrong","command":"echo hi"}` against the shipped
secret. -/
theorem C1_invalid_key_rejected_witness :
    Server.handleConnection (NewServer ⟨SERVER_PORT, API_KEY⟩) World.quiet
        [ascii "\x7b\"api_key\":\"wrong\",\"command\":\"echo hi\"\x7d\n"]
        = [Effect.connWrite (ascii "\x7b\"output\":\"\",\"error\":\"Invalid API key\"\x7d\n"),
           Effect.connClose]
      ∧ (Server.handleConnection (NewServer ⟨SERVER_PORT, API_KEY⟩) World.quiet
        [ascii "\x7b\"api_key\":\"wrong\",\"command\":\"echo hi\"\x7d\n"]).filter
          Effect.startsExecutor = [] :=
  C1_invalid_key_rejected (NewServer ⟨SERVER_PORT, API_KEY⟩) World.quiet
    [ascii "\x7b\"api_key\":\"wrong\",\"command\":\"echo hi\"\x7d\n"]
    (ascii "\x7b\"api_key\":\"wrong\",\"command\":\"echo hi\"\x7d\n") [] []
    ⟨ascii "wrong", ascii "echo hi", false⟩ (by decide) (by decide) (Or.inl (by decide))

/-- C2: for every handshake record whose `ApiKey` equals the configured secret,
`handleConnection` starts exactly one executor, once. With `terminal` true the trace is
that of `handleTerminalSession` on the connection, in which the only executor started is
the shell on the PTY and to which the `command` field is not passed; with `terminal`
false the trace is one run of `sh -c` on the `command` field as given, followed by the
reply. -/
theorem C2_dispatch_once (s : Server) (w : World) (conn : Stream)
    (message buffered : List Nat) (conn1 : Stream) (cmd : Command)
    (hread : ReadString 0x0A conn = some (message, buffered, conn1))
    (hdec : Unmarshal message = some cmd) (hkey : cmd.ApiKey = s.config.APIKey) :
    ((Server.handleConnection s w conn).filter Effect.startsExecutor).length = 1
      ∧ (cmd.Terminal = true →
          Server.handleConnection s w conn
              = s.handleTerminalSession w conn1 ++ [Effect.connClose]
            ∧ (Server.handleConnection s w conn).filter Effect.startsExecutor
              = [Effect.ptyStart (if w.SHELL = [] then ascii "/bin/bash" else w.SHELL)])
      ∧ (cmd.Terminal = false →
          ∃ reply, Server.handleConnection s w conn
              = [Effect.run (ascii "sh") [ascii "-c", cmd.Command] none,
                 Effect.connWrite reply, Effect.connClose]) := by
  have heq := handleConnection_eq s w conn message buffered conn1 hread
  rw [hdec] at heq
  simp only [hkey, ne_eq, not_true_eq_false, if_false] at heq
  cases ht : cmd.Terminal with
  | true =>
    rw [ht] at heq
    simp only [if_true] at heq
    have hf : (Server.handleConnection s w conn).filter Effect.startsExecutor
        = [Effect.ptyStart (if w.SHELL = [] then ascii "/bin/bash" else w.SHELL)] := by
      rw [heq, List.filter_append, handleTerminalSession_executor]
      simp [Effect.startsExecutor]
    exact ⟨by rw [hf]; rfl, fun _ => ⟨heq, hf⟩, fun h => by simp at h⟩
  | false =>
    rw [ht] at heq
    simp only [Bool.false_eq_true, if_false] at heq
    have hs : ∃ reply, Server.handleConnection s w conn
        = [Effect.run (ascii "sh") [ascii "-c", cmd.Command] none,
           Effect.connWrite reply, Effect.connClose] := by
      rw [heq]
      unfold Server.handleSingleCommand
      simp only
      split
      · exact ⟨_, rfl⟩
      · exact ⟨_, rfl⟩
    refine ⟨?_, fun h => by simp at h, fun _ => hs⟩
    obtain ⟨reply, hr⟩ := hs
    rw [hr]
    simp [Effect.startsExecutor]

/-- C2, witness: the shipped secret with `terminal` true and a `command` that is not run. -/
theorem C2_dispatch_once_witness :
    (Server.handleConnection (NewServer ⟨SERVER_PORT, API_KEY⟩) World.quiet
      [ascii "\x7b\"api_key\":\"your-secret-key-12345\",\"command\":\"id\",\"terminal\":true\x7d\n"]
      ).filter Effect.startsExecutor = [Effect.ptyStart (ascii "/bin/bash")] :=
  ((C2_dispatch_once (NewServer ⟨SERVER_PORT, API_KEY⟩) World.quiet
    [ascii "\x7b\"api_key\":\"your-secret-key-12345\",\"command\":\"id\",\"terminal\":true\x7d\n"]
    (ascii "\x7b\"api_key\":\"your-secret-key-12345\",\"command\":\"id\",\"terminal\":true\x7d\n")
    [] [] ⟨API_KEY, ascii "id", true⟩ (by decide) (by decide) (by decide)).2.1 rfl).2

/-- C5: for every received line that does not decode as a handshake record,
`handleConnection` writes the structured record with empty `output` and `error`
"Invalid command format", then closes the connection; the trace is the same for every
configured secret, starts no executor, and is not the authentication-failure reply. -/
theorem C5_malformed_line (s : Server) (w : World) (conn : Stream)
    (message buffered : List Nat) (conn1 : Stream)
    (hread : ReadString 0x0A conn = some (message, buffered, conn1))
    (hdec : Unmarshal message = none) :
    Server.handleConnection s w conn
        = [Effect.connWrite (encodeResponse ⟨[], ascii "Invalid command format"⟩),
           Effect.connClose]
      ∧ encodeResponse ⟨[], ascii "Invalid command format"⟩
        = ascii "\x7b\"output\":\"\",\"error\":\"Invalid command format\"\x7d\n"
      ∧ (∀ s1 : Server, Server.handleConnection s1 w conn = Server.handleConnection s w conn)
      ∧ (Server.handleConnection s w conn).filter Effect.startsExecutor = []
      ∧ Server.handleConnection s w conn
        ≠ [Effect.connWrite (encodeResponse ⟨[], ascii "Invalid API key"⟩), Effect.connClose] := by
  have heq : ∀ s1 : Server, Server.handleConnection s1 w conn
      = [Effect.connWrite (encodeResponse ⟨[], ascii "Invalid command format"⟩),
         Effect.connClose] := by
    intro s1
    have := handleConnection_eq s1 w conn message buffered conn1 hread
    rw [hdec] at this
    exact this
  refine ⟨heq s, invalidFormat_bytes, fun s1 => by rw [heq s1, heq s], ?_, ?_⟩
  · rw [heq s]; simp [Effect.startsExecutor]
  · rw [heq s]; decide

/-- C5, witness: a line that is not JSON, sent with no regard to the secret. -/
theorem C5_malformed_line_witness :
    Server.handleConnection (NewServer ⟨SERVER_PORT, API_KEY⟩) World.quiet [ascii "run id\n"]
      = [Effect.connWrite (encodeResponse ⟨[], ascii "Invalid command format"⟩),
         Effect.connClose] :=
  (C5_malformed_line (NewServer ⟨SERVER_PORT, API_KEY⟩) World.quiet [ascii "run id\n"]
    (ascii "run id\n") [] [] (by decide) (by decide)).1

/-! ## The batch executor -/

theorem parseJSON_letter_E (rest : List Nat) : parseJSON (0x45 :: rest) = none := by
  unfold parseJSON
  rw [show skipSpace (0x45 :: rest) = 0x45 :: rest from by simp [skipSpace, isSpace]]
  obtain ⟨n, hn⟩ : ∃ n, 2 * (0x45 :: rest).length + 2 = n + 1 := ⟨_, rfl⟩
  rw [hn, parseValue]
  simp [isDigit]

/-- C3, as stated, fails: when the shell line prints `x` and exits with status 1, the
bytes written to the connection are not the captured output. -/
theorem C3_nonzero_exit_counterexample :
    ¬ (∀ (s : Server) (w : World) (command : List Nat),
        connOutput (s.handleSingleCommand w command)
          = (w.CombinedOutput (ascii "sh") [ascii "-c", command] none).1) := by
  intro h
  have := h (NewServer ⟨SERVER_PORT, API_KEY⟩) World.failing (ascii "echo x; exit 1")
  revert this
  decide

/-- C3, amended: when the run of the shell line returns no error (the command exits with
status 0), the bytes `handleSingleCommand` writes to the connection are exactly the
captured combined output, nothing added or removed, whether it is empty or has several
lines; when the command exits with a non-zero status, what is written is the line
`Error executing command: exit status N`, the line `Output:` and then the captured
output. -/
theorem C3_batch_output (s : Server) (w : World) (command : List Nat) :
    ((w.CombinedOutput (ascii "sh") [ascii "-c", command] none).2 = none →
        s.handleSingleCommand w command
            = [Effect.run (ascii "sh") [ascii "-c", command] none,
               Effect.connWrite (w.CombinedOutput (ascii "sh") [ascii "-c", command] none).1]
          ∧ connOutput (s.handleSingleCommand w command)
            = (w.CombinedOutput (ascii "sh") [ascii "-c", command] none).1)
      ∧ (∀ status : Nat,
          (w.CombinedOutput (ascii "sh") [ascii "-c", command] none).2
              = some (ExecError.exit status) →
          connOutput (s.handleSingleCommand w command)
            = ascii "Error executing command: exit status " ++ ascii (toString status)
              ++ ascii "\nOutput:\n"
              ++ (w.CombinedOutput (ascii "sh") [ascii "-c", command] none).1) := by
  constructor
  · intro h
    unfold Server.handleSingleCommand
    simp [h, connOutput]
  · intro status h
    have hcat : ascii "Error executing command: exit status "
        = ascii "Error executing command: " ++ ascii "exit status " := by decide
    unfold Server.handleSingleCommand
    simp [h, connOutput, ExecError.Error, hcat]

/-- C3, witness: a successful run with empty output, and a run that exits with status 1. -/
theorem C3_batch_output_witness :
    connOutput ((NewServer ⟨SERVER_PORT, API_KEY⟩).handleSingleCommand World.quiet (ascii "true"))
        = []
      ∧ connOutput ((NewServer ⟨SERVER_PORT, API_KEY⟩).handleSingleCommand World.failing
          (ascii "echo x; exit 1"))
        = ascii "Error executing command: exit status 1\nOutput:\nx\n" :=
  ⟨((C3_batch_output (NewServer ⟨SERVER_PORT, API_KEY⟩) World.quiet (ascii "true")).1 rfl).2,
   (C3_batch_output (NewServer ⟨SERVER_PORT, API_KEY⟩) World.failing
      (ascii "echo x; exit 1")).2 1 rfl⟩

/-- C4: for every batch execution that ends with an error `err` and captured output `out`,
`handleSingleCommand` writes `Error executing command: `, the text of `err`, a newline,
`Output:`, a newline and `out` to the connection; `out` is a suffix of the reply, and the
reply is not the encoding of any structured record, nor JSON at all. -/
theorem C4_error_reply (s : Server) (w : World) (command : List Nat) (err : ExecError)
    (h : (w.CombinedOutput (ascii "sh") [ascii "-c", command] none).2 = some err) :
    connOutput (s.handleSingleCommand w command)
        = ascii "Error executing command: " ++ err.Error ++ ascii "\nOutput:\n"
          ++ (w.CombinedOutput (ascii "sh") [ascii "-c", command] none).1
      ∧ (w.CombinedOutput (ascii "sh") [ascii "-c", command] none).1
          <:+ connOutput (s.handleSingleCommand w command)
      ∧ (∀ r : Response, connOutput (s.handleSingleCommand w command) ≠ encodeResponse r
          ∧ connOutput (s.handleSingleCommand w command) ≠ marshalResponse r)
      ∧ parseJSON (connOutput (s.handleSingleCommand w command)) = none := by
  have hreply : connOutput (s.handleSingleCommand w command)
      = ascii "Error executing command: " ++ err.Error ++ ascii "\nOutput:\n"
        ++ (w.CombinedOutput (ascii "sh") [ascii "-c", command] none).1 := by
    unfold Server.handleSingleCommand
    simp only [h]
    simp [connOutput]
  have hhead : ∃ rest, connOutput (s.handleSingleCommand w command) = 0x45 :: rest := by
    rw [hreply]
    have : ascii "Error executing command: " = 0x45 :: ascii "rror executing command: " := by
      decide
    rw [this]
    simp only [List.cons_append]
    exact ⟨_, rfl⟩
  obtain ⟨rest, hrest⟩ := hhead
  refine ⟨hreply, ?_, ?_, ?_⟩
  · rw [hreply]
    exact List.suffix_append _ _
  · intro r
    rw [hrest]
    have h1 : ascii "\x7b\"output\":" = 0x7B :: ascii "\"output\":" := by decide
    constructor
    · unfold encodeResponse marshalResponse
      rw [h1]
      simp
    · unfold marshalResponse
      rw [h1]
      simp
  · rw [hrest]
    exact parseJSON_letter_E rest

/-- C4, witness: a command that prints `x` and exits with status 1. -/
theorem C4_error_reply_witness :
    connOutput ((NewServer ⟨SERVER_PORT, API_KEY⟩).handleSingleCommand World.failing
        (ascii "echo x; exit 1"))
      = ascii "Error executing command: " ++ (ExecError.exit 1).Error ++ ascii "\nOutput:\n"
        ++ ascii "x\n" :=
  (C4_error_reply (NewServer ⟨SERVER_PORT, API_KEY⟩) World.failing (ascii "echo x; exit 1")
    (ExecError.exit 1) rfl).1

/-! ## The address the client dials -/

/-- C7, the failing input: for the IPv6 literal `::1`, a host without a port, both client
calls dial `::1` itself; the default port is not appended. The IPv4 address `10.0.0.1`
gets it. -/
theorem C7_ipv6_literal_gets_no_port :
    ((client.NewClient client.mainConfig).executeCommand (ascii "::1") (ascii "ls")).address
        = ascii "::1"
      ∧ ((client.NewClient client.mainConfig).startTerminalSession (ascii "::1")).address
        = ascii "::1"
      ∧ ((client.NewClient client.mainConfig).executeCommand (ascii "10.0.0.1") (ascii "ls")).address
        = ascii "10.0.0.1:7107" := by
  decide

/-- The rule the client applies: an argument without a colon is dialed with the default
port appended, an argument with a colon is dialed unchanged. -/
theorem client_address_rule (c : client.Client) (srv command : List Nat) :
    (0x3A ∉ srv → (c.executeCommand srv command).address = srv ++ ascii ":7107"
        ∧ (c.startTerminalSession srv).address = srv ++ ascii ":7107")
      ∧ (0x3A ∈ srv → (c.executeCommand srv command).address = srv
        ∧ (c.startTerminalSession srv).address = srv) := by
  have hp : client.DEFAULT_PORT = ascii ":7107" := rfl
  constructor
  · intro h
    simp [client.Client.executeCommand, client.Client.startTerminalSession, containsColon, h, hp]
  · intro h
    simp [client.Client.executeCommand, client.Client.startTerminalSession, containsColon, h]

/-! ## Teardown -/

/-- C9, the failing schedules. Server: a termination signal arrives, the watcher closes
`done` and kills the shell, `cmd.Wait()` returns and the deferred `close(done)` runs on
the closed channel; or the shell exits, the handler returns and closes `done`, and a
signal that arrives later makes the watcher, which is still waiting, close it again.
Client: the output loop is reading, a signal arrives, the watcher closes `done`, and
before it reaches `os.Exit` either the read ends, or data arrives and the loop finds
`done` closed at its `select`; the function returns and its deferred `close(done)` runs
on the closed channel. In all four `done` is closed twice. -/
theorem C9_done_closed_twice :
    (teardownRun Teardown.start
        [Step.signal, Step.watcherClose, Step.watcherKill, Step.handlerReturn]).map
          (fun t => t.closes) = some 2
      ∧ (teardownRun Teardown.start
        [Step.shellExit, Step.handlerReturn, Step.signal, Step.watcherClose]).map
          (fun t => t.closes) = some 2
      ∧ (client.teardownRun client.Teardown.start
        [client.Step.select, client.Step.signal, client.Step.watcherClose,
         client.Step.readEnd]).map (fun t => t.closes) = some 2
      ∧ (client.teardownRun client.Teardown.start
        [client.Step.select, client.Step.signal, client.Step.watcherClose,
         client.Step.readData, client.Step.select]).map (fun t => t.closes) = some 2 := by
  decide

/-! ## Teardown without a signal -/

theorem teardownStep_quiet (t t2 : Teardown) (e : Step) (he : e ≠ Step.signal)
    (hw : t.watcher = 0) (hc : t.closes = (if t.returned then 1 else 0))
    (hstep : teardownStep t e = some t2) :
    t2.watcher = 0 ∧ t2.closes = (if t2.returned then 1 else 0) := by
  obtain ⟨closes, dead, watcher, returned, exited⟩ := t
  simp only at hw hc
  subst hw
  cases e
  · exact absurd rfl he
  all_goals
    simp only [teardownStep] at hstep
    split_ifs at hstep
    all_goals first
      | omega
      | (simp only [Option.some.injEq] at hstep
         subst hstep
         simp_all)

theorem teardownRun_quiet (sched : List Step) :
    ∀ (t t1 : Teardown), Step.signal ∉ sched → t.watcher = 0 →
      t.closes = (if t.returned then 1 else 0) → teardownRun t sched = some t1 →
      t1.watcher = 0 ∧ t1.closes = (if t1.returned then 1 else 0) := by
  induction sched with
  | nil =>
    intro t t1 _ hw hc h
    simp only [teardownRun, Option.some.injEq] at h
    subst h
    exact ⟨hw, hc⟩
  | cons e rest ih =>
    intro t t1 hs hw hc h
    simp only [List.mem_cons, not_or] at hs
    rw [teardownRun] at h
    cases hstep : teardownStep t e with
    | none => rw [hstep] at h; simp at h
    | some t2 =>
      rw [hstep] at h
      simp only at h
      have := teardownStep_quiet t t2 e (fun e1 => hs.1 e1.symm) hw hc hstep
      exact ih t2 t1 hs.2 this.1 this.2 h

/-- When no signal arrives, `done` of a server session is closed at most once on every
schedule: once when the handler has returned, not at all before. -/
theorem server_done_without_signal (sched : List Step) (t1 : Teardown)
    (hs : Step.signal ∉ sched) (h : teardownRun Teardown.start sched = some t1) :
    t1.closes = (if t1.returned then 1 else 0) ∧ t1.closes ≤ 1 := by
  have := teardownRun_quiet sched Teardown.start t1 hs rfl rfl h
  refine ⟨this.2, ?_⟩
  rw [this.2]
  split_ifs <;> omega

/-- An instance: the peer disconnects, the shell is killed, the handler returns. -/
theorem server_done_without_signal_witness :
    (⟨1, true, 0, true, false⟩ : Teardown).closes
        = (if (⟨1, true, 0, true, false⟩ : Teardown).returned then 1 else 0)
      ∧ (⟨1, true, 0, true, false⟩ : Teardown).closes ≤ 1 :=
  server_done_without_signal [Step.peerDisconnect, Step.handlerReturn] ⟨1, true, 0, true, false⟩
    (by decide) (by decide)

/-! ## The handshake line of the client -/

theorem handshake_one_newline (cmd : Command) :
    (marshalCommand cmd ++ [0x0A]).count 0x0A = 1
      ∧ (marshalCommand cmd ++ [0x0A]).getLast? = some 0x0A := by
  have h := marshalCommand_no_newline cmd
  constructor
  · rw [List.count_append, List.count_eq_zero.mpr h]
    rfl
  · simp

theorem handshake_read_whole (cmd : Command) (conn : Stream) (more : List Nat)
    (h : conn.bytes = marshalCommand cmd ++ [0x0A] ++ more) :
    ∃ buffered conn1, ReadString 0x0A conn = some (marshalCommand cmd ++ [0x0A], buffered, conn1)
      ∧ buffered ++ conn1.bytes = more :=
  ReadString_spec 0x0A conn (marshalCommand cmd) more (marshalCommand_no_newline cmd)
    (by rw [h]; simp)

theorem validUTF8_nil : ValidUTF8 [] := ⟨[], by simp, rfl⟩

/-- C6, as stated, fails: the command consisting of the single byte 0xFF, which is not
well-formed UTF-8, is not decoded to the command the initiator put in (the encoder
replaces the byte by U+FFFD). -/
theorem C6_invalid_utf8_counterexample :
    ¬ (∀ (c : client.Client) (srv command : List Nat),
        Unmarshal (c.executeCommand srv command).sent
          = some { ApiKey := c.config.APIKey, Command := command, Terminal := false }) := by
  intro h
  have := h (client.NewClient client.mainConfig) (ascii "10.0.0.1") [0xFF]
  revert this
  decide

/-- C6, amended: for every secret and every command (any bytes), the handshake either
client call sends, the JSON encoding of the record followed by a newline, contains
exactly one newline byte, its last byte, also when the command contains newlines or
other control characters; so on every stream that starts with the handshake, however it
is cut into arrivals, the responder's `ReadString` returns the whole handshake line; and
when the secret and the command are well-formed UTF-8, decoding that line gives back the
same `api_key`, `command` and `terminal`. -/
theorem C6_handshake_line (c : client.Client) (srv command : List Nat) :
    ((c.executeCommand srv command).sent.count 0x0A = 1
        ∧ (c.executeCommand srv command).sent.getLast? = some 0x0A
        ∧ (c.startTerminalSession srv).sent.count 0x0A = 1
        ∧ (c.startTerminalSession srv).sent.getLast? = some 0x0A)
      ∧ (∀ (conn : Stream) (more : List Nat),
          (conn.bytes = (c.executeCommand srv command).sent ++ more →
            ∃ buffered conn1, ReadString 0x0A conn
                = some ((c.executeCommand srv command).sent, buffered, conn1)
              ∧ buffered ++ conn1.bytes = more)
          ∧ (conn.bytes = (c.startTerminalSession srv).sent ++ more →
            ∃ buffered conn1, ReadString 0x0A conn
                = some ((c.startTerminalSession srv).sent, buffered, conn1)
              ∧ buffered ++ conn1.bytes = more))
      ∧ (ValidUTF8 c.config.APIKey → ValidUTF8 command →
          Unmarshal (c.executeCommand srv command).sent
            = some { ApiKey := c.config.APIKey, Command := command, Terminal := false })
      ∧ (ValidUTF8 c.config.APIKey →
          Unmarshal (c.startTerminalSession srv).sent
            = some { ApiKey := c.config.APIKey, Command := [], Terminal := true }) := by
  refine ⟨⟨?_, ?_, ?_, ?_⟩, ?_, ?_, ?_⟩
  · exact (handshake_one_newline _).1
  · exact (handshake_one_newline _).2
  · exact (handshake_one_newline _).1
  · exact (handshake_one_newline _).2
  · intro conn more
    exact ⟨fun h => handshake_read_whole _ conn more h,
      fun h => handshake_read_whole _ conn more h⟩
  · intro hk hm
    exact Unmarshal_marshalCommand _ hk hm
  · intro hk
    exact Unmarshal_marshalCommand _ hk validUTF8_nil

/-- C6, witness: the shipped secret and a command of two lines, one holding a quote, one
a tab and the rune U+00E9. -/
theorem C6_handshake_line_witness :
    Unmarshal ((client.NewClient client.mainConfig).executeCommand (ascii "10.0.0.1")
        (utf8 [0x65, 0x63, 0x68, 0x6F, 0x20, 0x22, 0x0A, 0x09, 0xE9])).sent
      = some { ApiKey := client.API_KEY
               Command := utf8 [0x65, 0x63, 0x68, 0x6F, 0x20, 0x22, 0x0A, 0x09, 0xE9]
               Terminal := false } :=
  (C6_handshake_line (client.NewClient client.mainConfig) (ascii "10.0.0.1")
    (utf8 [0x65, 0x63, 0x68, 0x6F, 0x20, 0x22, 0x0A, 0x09, 0xE9])).2.2.1
    ⟨client.API_KEY, by decide, by decide⟩
    ⟨[0x65, 0x63, 0x68, 0x6F, 0x20, 0x22, 0x0A, 0x09, 0xE9], by decide, rfl⟩

/-! ## The relay of an interactive session -/

/-- C8, the failing input: the handshake line and the keystrokes `ls` and newline arrive
in one read. The buffered reader returns the line and keeps `ls` and the newline in its
buffer; the session reads the connection itself, and nothing reaches the
pseudo-terminal. When the same bytes arrive apart, the keystrokes do reach it. -/
theorem C8_bytes_after_handshake_dropped :
    ReadString 0x0A
        [ascii "\x7b\"api_key\":\"your-secret-key-12345\",\"terminal\":true\x7d\nls\n"]
        = some (ascii "\x7b\"api_key\":\"your-secret-key-12345\",\"terminal\":true\x7d\n",
            ascii "ls\n", [])
      ∧ ptyInput (Server.handleConnection (NewServer ⟨SERVER_PORT, API_KEY⟩) World.quiet
          [ascii "\x7b\"api_key\":\"your-secret-key-12345\",\"terminal\":true\x7d\nls\n"]) = []
      ∧ ptyInput (Server.handleConnection (NewServer ⟨SERVER_PORT, API_KEY⟩) World.quiet
          [ascii "\x7b\"api_key\":\"your-secret-key-12345\",\"terminal\":true\x7d\n",
           ascii "ls\n"]) = ascii "ls\n" := by
  decide

/-! ## What reaches the pseudo-terminal -/

theorem readStringLoop_parts (delim : Nat) :
    ∀ (fuel : Nat) (got : List Nat) (used : Nat) (conn : Stream) (line buffered : List Nat)
      (conn1 : Stream), readStringLoop delim fuel got used conn = some (line, buffered, conn1) →
      line ++ buffered ++ conn1.bytes = got ++ conn.bytes := by
  intro fuel
  induction fuel with
  | zero => intro got used conn line buffered conn1 h; simp [readStringLoop] at h
  | succ n ih =>
    intro got used conn line buffered conn1 h
    rw [readStringLoop] at h
    cases hread : Stream.read (defaultBufSize - used) conn with
    | none => rw [hread] at h; simp at h
    | some r =>
      obtain ⟨chunk, conn2⟩ := r
      obtain ⟨hcat, _, _⟩ := Stream.read_some _ _ _ _ hread
      rw [hread] at h
      simp only at h
      cases hsplit : splitAfter delim chunk with
      | some la =>
        obtain ⟨l, a⟩ := la
        rw [hsplit] at h
        simp only [Option.some.injEq, Prod.mk.injEq] at h
        obtain ⟨rfl, rfl, rfl⟩ := h
        obtain ⟨p, rfl, _, rfl⟩ := splitAfter_some _ _ _ _ hsplit
        rw [← hcat]
        simp
      | none =>
        rw [hsplit] at h
        simp only at h
        rw [ih _ _ _ _ _ _ h, ← hcat]
        simp

/-- The line `ReadString` returns, the bytes it keeps in its buffer and the bytes left on
the stream are, in this order, the bytes of the stream. -/
theorem ReadString_parts (delim : Nat) (conn : Stream) (line buffered : List Nat)
    (conn1 : Stream) (h : ReadString delim conn = some (line, buffered, conn1)) :
    line ++ buffered ++ conn1.bytes = conn.bytes := by
  unfold ReadString at h
  simpa using readStringLoop_parts delim _ _ _ _ _ _ _ h

theorem ptyInput_append (a b : List Effect) : ptyInput (a ++ b) = ptyInput a ++ ptyInput b := by
  induction a with
  | nil => rfl
  | cons e rest ih => cases e <;> simp [ptyInput, ih]

theorem connOutput_append (a b : List Effect) :
    connOutput (a ++ b) = connOutput a ++ connOutput b := by
  induction a with
  | nil => rfl
  | cons e rest ih => cases e <;> simp [connOutput, ih]

theorem relay_cons (env : LoopEnv) (write : List Nat → Effect) (fuel i : Nat) (src : Stream) :
    relay env write (fuel + 1) i src =
      if env.done i then []
      else
        match Stream.read 1024 src with
        | none => [Effect.kill]
        | some (chunk, src1) =>
          if env.writeFails i then [Effect.kill]
          else write chunk :: relay env write fuel (i + 1) src1 := by
  rfl

/-- The bytes the connection-to-PTY loop writes are an initial part of the bytes of its
source, in order; it is all of them when the loop never finds `done` closed and no write
fails. -/
theorem relay_ptyInput (env : LoopEnv) :
    ∀ (fuel i : Nat) (src : Stream), src.bytes.length + 1 ≤ fuel →
      ∃ rest, ptyInput (relay env Effect.ptyWrite fuel i src) ++ rest = src.bytes
        ∧ ((∀ j, env.done j = false ∧ env.writeFails j = false) → rest = []) := by
  intro fuel
  induction fuel with
  | zero => intro i src h; omega
  | succ n ih =>
    intro i src hfuel
    rw [relay_cons]
    by_cases hd : env.done i = true
    · exact ⟨src.bytes, by simp [hd, ptyInput], fun h => by simp [(h i).1] at hd⟩
    · cases hr : Stream.read 1024 src with
      | none =>
        have := Stream.read_none _ _ hr
        exact ⟨[], by simp [hd, ptyInput, this], fun _ => rfl⟩
      | some r =>
        obtain ⟨chunk, src1⟩ := r
        obtain ⟨hcat, _, hne⟩ := Stream.read_some _ _ _ _ hr
        by_cases hw : env.writeFails i = true
        · exact ⟨src.bytes, by simp [hd, hw, ptyInput], fun h => by simp [(h i).2] at hw⟩
        · have hlen : 1 ≤ chunk.length := by
            cases chunk with
            | nil => exact absurd rfl (hne (by decide))
            | cons a t => simp
          obtain ⟨rest, h1, h2⟩ := ih (i + 1) src1 (by
            rw [← hcat] at hfuel
            simp only [List.length_append] at hfuel
            omega)
          refine ⟨rest, ?_, h2⟩
          simp only [hd, hw, Bool.false_eq_true, if_false, ptyInput, List.append_assoc, h1, hcat]

/-- The bytes the PTY-to-connection loop writes are an initial part of the bytes the
pseudo-terminal delivers, in order; all of them when the loop never finds `done` closed
and no write fails. -/
theorem relay_connOutput (env : LoopEnv) :
    ∀ (fuel i : Nat) (src : Stream), src.bytes.length + 1 ≤ fuel →
      ∃ rest, connOutput (relay env Effect.connWrite fuel i src) ++ rest = src.bytes
        ∧ ((∀ j, env.done j = false ∧ env.writeFails j = false) → rest = []) := by
  intro fuel
  induction fuel with
  | zero => intro i src h; omega
  | succ n ih =>
    intro i src hfuel
    rw [relay_cons]
    by_cases hd : env.done i = true
    · exact ⟨src.bytes, by simp [hd, connOutput], fun h => by simp [(h i).1] at hd⟩
    · cases hr : Stream.read 1024 src with
      | none =>
        have := Stream.read_none _ _ hr
        exact ⟨[], by simp [hd, connOutput, this], fun _ => rfl⟩
      | some r =>
        obtain ⟨chunk, src1⟩ := r
        obtain ⟨hcat, _, hne⟩ := Stream.read_some _ _ _ _ hr
        by_cases hw : env.writeFails i = true
        · exact ⟨src.bytes, by simp [hd, hw, connOutput], fun h => by simp [(h i).2] at hw⟩
        · have hlen : 1 ≤ chunk.length := by
            cases chunk with
            | nil => exact absurd rfl (hne (by decide))
            | cons a t => simp
          obtain ⟨rest, h1, h2⟩ := ih (i + 1) src1 (by
            rw [← hcat] at hfuel
            simp only [List.length_append] at hfuel
            omega)
          refine ⟨rest, ?_, h2⟩
          simp only [hd, hw, Bool.false_eq_true, if_false, connOutput, List.append_assoc, h1,
            hcat]

/-- The bytes the PTY-to-connection loop of a session writes to the connection are, in
order, an initial part of the bytes the pseudo-terminal delivers: none is dropped,
repeated or moved before the loop ends; they are all of them when the loop never finds
`done` closed and no write fails. -/
theorem ptyToConn_in_order (env : LoopEnv) (src : Stream) :
    ∃ rest, connOutput (relay env Effect.connWrite (src.bytes.length + 1) 0 src) ++ rest
        = src.bytes
      ∧ ((∀ j, env.done j = false ∧ env.writeFails j = false) → rest = []) :=
  relay_connOutput env (src.bytes.length + 1) 0 src (le_refl _)

theorem relay_connWrite_ptyInput (env : LoopEnv) (fuel i : Nat) (src : Stream) :
    ptyInput (relay env Effect.connWrite fuel i src) = [] := by
  have h := relay_effects env Effect.connWrite fuel i src
  generalize relay env Effect.connWrite fuel i src = L at h
  induction L with
  | nil => rfl
  | cons e rest ih =>
    have hrest := ih (fun x hx => h x (by simp [hx]))
    rcases h e (by simp) with rfl | ⟨c, rfl⟩ <;> simp [ptyInput, hrest]

/-- In an interactive session the bytes written to the pseudo-terminal are, in order, an
initial part of the bytes still on the connection after the read that completed the
handshake line, and all of them when the shell starts and the loop runs to the end of
the stream. The bytes the buffered reader took past the newline are not among them. -/
theorem terminal_session_input (s : Server) (w : World) (conn : Stream)
    (message buffered : List Nat) (conn1 : Stream) (cmd : Command)
    (hread : ReadString 0x0A conn = some (message, buffered, conn1))
    (hdec : Unmarshal message = some cmd) (hkey : cmd.ApiKey = s.config.APIKey)
    (hterm : cmd.Terminal = true) :
    message ++ buffered ++ conn1.bytes = conn.bytes
      ∧ ∃ rest, ptyInput (Server.handleConnection s w conn) ++ rest = conn1.bytes
        ∧ (w.ptyStarts (if w.SHELL = [] then ascii "/bin/bash" else w.SHELL) = true →
            (∀ j, w.inbound.done j = false ∧ w.inbound.writeFails j = false) → rest = []) := by
  refine ⟨ReadString_parts _ _ _ _ _ hread, ?_⟩
  have heq := handleConnection_eq s w conn message buffered conn1 hread
  rw [hdec] at heq
  simp only [hkey, ne_eq, not_true_eq_false, if_false, hterm, if_true] at heq
  rw [heq]
  unfold Server.handleTerminalSession
  generalize (if w.SHELL = [] then ascii "/bin/bash" else w.SHELL) = shell
  simp only
  by_cases hp : w.ptyStarts shell = true
  · obtain ⟨rest, h1, h2⟩ := relay_ptyInput w.inbound (conn1.bytes.length + 1) 0 conn1 (le_refl _)
    refine ⟨rest, ?_, fun _ h => h2 h⟩
    simp only [hp, if_true, ptyInput_append, relay_connWrite_ptyInput]
    simpa [ptyInput] using h1
  · exact ⟨conn1.bytes, by simp [hp, ptyInput], fun h => absurd h hp⟩

/-- An instance of the session input: the handshake and two later arrivals. -/
theorem terminal_session_input_witness :
    ∃ rest, ptyInput (Server.handleConnection (NewServer ⟨SERVER_PORT, API_KEY⟩) World.quiet
        [ascii "\x7b\"api_key\":\"your-secret-key-12345\",\"terminal\":true\x7d\n",
         ascii "ls\n", ascii "pwd\n"]) ++ rest = Stream.bytes [ascii "ls\n", ascii "pwd\n"]
      ∧ (World.quiet.ptyStarts (if World.quiet.SHELL = [] then ascii "/bin/bash"
            else World.quiet.SHELL) = true →
          (∀ j, World.quiet.inbound.done j = false ∧ World.quiet.inbound.writeFails j = false) →
          rest = []) :=
  (terminal_session_input (NewServer ⟨SERVER_PORT, API_KEY⟩) World.quiet
    [ascii "\x7b\"api_key\":\"your-secret-key-12345\",\"terminal\":true\x7d\n",
     ascii "ls\n", ascii "pwd\n"]
    (ascii "\x7b\"api_key\":\"your-secret-key-12345\",\"terminal\":true\x7d\n") []
    [ascii "ls\n", ascii "pwd\n"] ⟨API_KEY, [], true⟩ (by decide) (by decide) (by decide)
    (by decide)).2

/-! ## The alternate executor -/

theorem runes_bytes_ne (fuel : Nat) : ∀ (s : List Nat), ∀ p ∈ runes fuel s, p.2 ≠ [] := by
  induction fuel with
  | zero => intro s p hp; simp [runes] at hp
  | succ n ih =>
    intro s p hp
    cases s with
    | nil => simp [runes] at hp
    | cons b rest =>
      rw [runes] at hp
      simp only [List.mem_cons] at hp
      rcases hp with rfl | hp
      · have := decodeRune_size_pos b rest
        obtain ⟨m, hm⟩ : ∃ m, (decodeRune (b :: rest)).2 = m + 1 := ⟨_, (Nat.sub_add_cancel this).symm⟩
        simp [hm]
      · exact ih _ p hp

/-- The runes visited make up the whole string: the fuel is enough. -/
theorem runes_cover (fuel : Nat) : ∀ (s : List Nat), s.length ≤ fuel →
    ((runes fuel s).map fun p => p.2).flatten = s := by
  induction fuel with
  | zero => intro s hs; cases s <;> simp_all [runes]
  | succ n ih =>
    intro s hs
    cases s with
    | nil => simp [runes]
    | cons b rest =>
      have hpos := decodeRune_size_pos b rest
      rw [runes]
      simp only [List.map_cons, List.flatten_cons]
      rw [ih _ (by simp only [List.length_drop, List.length_cons] at hs ⊢; omega)]
      exact List.take_append_drop _ _

theorem flatten_eq_nil_of_ne (L : List (Nat × List Nat)) (h : ∀ p ∈ L, p.2 ≠ []) :
    (L.map fun p => p.2).flatten = [] ↔ L = [] := by
  cases L with
  | nil => simp
  | cons p rest =>
    have := h p (by simp)
    simp [this]

theorem trim_both_eq_nil (f : Nat × List Nat → Bool) (L : List (Nat × List Nat)) :
    ((L.dropWhile f).reverse.dropWhile f).reverse = [] ↔ ∀ p ∈ L, f p = true := by
  rw [List.reverse_eq_nil_iff, List.dropWhile_eq_nil_iff]
  constructor
  · intro h
    have hall : ∀ p ∈ L.dropWhile f, f p = true := fun p hp => h p (by simpa using hp)
    cases hd : L.dropWhile f with
    | nil => exact List.dropWhile_eq_nil_iff.mp hd
    | cons a t =>
      have hfa : f a = true := hall a (by rw [hd]; simp)
      have hhead : (L.dropWhile f).head? = some a := by rw [hd]; rfl
      have := List.head?_dropWhile_not f L
      rw [hhead] at this
      simp [hfa] at this
  · intro h p hp
    have hp1 : p ∈ L.dropWhile f := by simpa using hp
    exact h p ((List.dropWhile_sublist f).subset hp1)

theorem TrimSpace_eq_nil (s : List Nat) : TrimSpace s = [] ↔ isBlank s = true := by
  unfold TrimSpace isBlank
  rw [flatten_eq_nil_of_ne, trim_both_eq_nil, List.all_eq_true]
  intro p hp
  apply runes_bytes_ne s.length s p
  have h1 : p ∈ ((runes s.length s).dropWhile fun p => unicodeIsSpace p.1).reverse.dropWhile
      fun p => unicodeIsSpace p.1 := by simpa using hp
  have h2 := (List.dropWhile_sublist _).subset h1
  have h3 : p ∈ (runes s.length s).dropWhile fun p => unicodeIsSpace p.1 := by simpa using h2
  exact (List.dropWhile_sublist _).subset h3

theorem fieldsLoop_eq_nil (L : List (Nat × List Nat)) (h : ∀ p ∈ L, p.2 ≠ []) :
    ∀ cur, fieldsLoop L cur = [] ↔ cur = [] ∧ ∀ p ∈ L, unicodeIsSpace p.1 = true := by
  induction L with
  | nil => intro cur; simp [fieldsLoop]
  | cons p rest ih =>
    intro cur
    have ihr := ih (fun q hq => h q (by simp [hq]))
    have hp := h p (by simp)
    rw [fieldsLoop]
    by_cases hs : unicodeIsSpace p.1 = true
    · by_cases hc : cur = []
      · simp [hs, hc, ihr]
      · simp [hs, hc]
    · simp only [hs, Bool.false_eq_true, if_false, ihr]
      simp [hp, hs]

theorem Fields_eq_nil (s : List Nat) : Fields s = [] ↔ isBlank s = true := by
  unfold Fields isBlank
  rw [fieldsLoop_eq_nil _ (runes_bytes_ne s.length s), List.all_eq_true]
  simp

theorem chunkBytes_append (a b : List (Nat × List Nat)) :
    chunkBytes (a ++ b) = chunkBytes a ++ chunkBytes b := by
  simp [chunkBytes]

theorem chunkBytes_ne (t : List (Nat × List Nat)) (ht : t ≠ [])
    (h : ∀ p ∈ t, p.2 ≠ []) : chunkBytes t ≠ [] := by
  cases t with
  | nil => exact absurd rfl ht
  | cons p rest =>
    have := h p (by simp)
    simp [chunkBytes, this]

theorem dropLast_cons_ne (g : List (Nat × List Nat)) (gaps : List (List (Nat × List Nat)))
    (hg : g ≠ []) (h : ∀ x ∈ gaps.dropLast, x ≠ []) :
    ∀ x ∈ (g :: gaps).dropLast, x ≠ [] := by
  cases gaps with
  | nil => simp
  | cons a t =>
    intro x hx
    simp only [List.dropLast_cons₂, List.mem_cons] at hx
    rcases hx with rfl | hx
    · exact hg
    · exact h x hx

/-- The loop of `Fields` cuts the runes into the maximal runs without white space: from
inside a word `cur` (second part) and from a gap (first part). -/
theorem fieldsLoop_splits (L : List (Nat × List Nat)) (hL : ∀ p ∈ L, p.2 ≠ []) :
    (∃ gap0 words gaps, SplitsInto L gap0 words gaps
        ∧ fieldsLoop L [] = words.map chunkBytes)
      ∧ (∀ cur : List (Nat × List Nat), cur ≠ [] →
          (∀ p ∈ cur, p.2 ≠ [] ∧ unicodeIsSpace p.1 = false) →
          ∃ words gaps, SplitsInto (cur ++ L) [] words gaps
            ∧ fieldsLoop L (chunkBytes cur) = words.map chunkBytes) := by
  induction L with
  | nil =>
    constructor
    · exact ⟨[], [], [], by simp [SplitsInto], by simp [fieldsLoop]⟩
    · intro cur hne hcur
      have hb := chunkBytes_ne cur hne (fun p hp => (hcur p hp).1)
      refine ⟨[cur], [[]], ?_, by simp [fieldsLoop, hb]⟩
      refine ⟨by simp, rfl, by simp, by simp, by simp, ?_⟩
      intro t ht
      simp only [List.mem_singleton] at ht
      subst ht
      exact ⟨hne, fun p hp => (hcur p hp).2⟩
  | cons p rest ih =>
    obtain ⟨ihB, ihA⟩ := ih (fun q hq => hL q (by simp [hq]))
    have hp := hL p (by simp)
    constructor
    · by_cases hs : unicodeIsSpace p.1 = true
      · obtain ⟨gap0, words, gaps, ⟨h1, h2, h3, h4, h5, h6⟩, hf⟩ := ihB
        refine ⟨p :: gap0, words, gaps, ⟨?_, h2, ?_, h4, h5, h6⟩, ?_⟩
        · rw [h1]; simp
        · intro q hq
          simp only [List.mem_cons] at hq
          rcases hq with rfl | hq
          · exact hs
          · exact h3 q hq
        · rw [fieldsLoop]; simp [hs, hf]
      · have hs1 : unicodeIsSpace p.1 = false := by simpa using hs
        obtain ⟨words, gaps, hsp, hf⟩ := ihA [p] (by simp) (by simp [hp, hs1])
        refine ⟨[], words, gaps, by simpa using hsp, ?_⟩
        rw [fieldsLoop]
        simp only [hs, Bool.false_eq_true, if_false, List.nil_append]
        have : chunkBytes [p] = p.2 := by simp [chunkBytes]
        rw [← this, hf]
    · intro cur hne hcur
      have hb := chunkBytes_ne cur hne (fun q hq => (hcur q hq).1)
      by_cases hs : unicodeIsSpace p.1 = true
      · obtain ⟨gap0, words, gaps, ⟨h1, h2, h3, h4, h5, h6⟩, hf⟩ := ihB
        refine ⟨cur :: words, (p :: gap0) :: gaps, ⟨?_, ?_, ?_, ?_, ?_, ?_⟩, ?_⟩
        · rw [h1]; simp
        · simp [h2]
        · simp
        · intro g hg q hq
          simp only [List.mem_cons] at hg
          rcases hg with rfl | hg
          · simp only [List.mem_cons] at hq
            rcases hq with rfl | hq
            · exact hs
            · exact h3 q hq
          · exact h4 g hg q hq
        · exact dropLast_cons_ne _ _ (by simp) h5
        · intro t ht
          simp only [List.mem_cons] at ht
          rcases ht with rfl | ht
          · exact ⟨hne, fun q hq => (hcur q hq).2⟩
          · exact h6 t ht
        · rw [fieldsLoop]; simp [hs, hb, hf]
      · have hs1 : unicodeIsSpace p.1 = false := by simpa using hs
        obtain ⟨words, gaps, hsp, hf⟩ := ihA (cur ++ [p]) (by simp) (by
          intro q hq
          simp only [List.mem_append, List.mem_singleton] at hq
          rcases hq with hq | rfl
          · exact hcur q hq
          · exact ⟨hp, hs1⟩)
        refine ⟨words, gaps, by simpa using hsp, ?_⟩
        rw [fieldsLoop]
        simp only [hs, Bool.false_eq_true, if_false]
        have : chunkBytes (cur ++ [p]) = chunkBytes cur ++ p.2 := by simp [chunkBytes]
        rw [← this, hf]

/-- C10: for every command string, `executeCommand` returns the error `empty command`
with empty output and runs nothing exactly when the command is empty or consists only of
white space; otherwise it runs the first white-space-delimited field as the program with
the remaining fields, in order, as arguments and an empty environment. The fields are
the maximal runs of runes without white space: the runes of the command, which make up
all of its bytes, are a leading gap of white space and then each word followed by a gap
of white space, no two words adjacent, and `strings.Fields` returns the bytes of the
words in that order. In the second case the list of fields is not empty, and the call
never panics on `parts[0]`. -/
theorem C10_executeCommand (s : Server) (w : World) (command : List Nat) :
    (s.executeCommand w command
        = Executed.returned [] [] (some (ExecError.other (ascii "empty command")))
      ↔ isBlank command = true)
    ∧ (isBlank command = false →
        ∃ name args, Fields command = name :: args
          ∧ s.executeCommand w command
            = Executed.returned [Effect.run name args (some [])]
                (w.CombinedOutput name args (some [])).1
                (w.CombinedOutput name args (some [])).2)
    ∧ s.executeCommand w command ≠ Executed.panicked
    ∧ ((runes command.length command).map fun p => p.2).flatten = command
    ∧ (∃ gap0 words gaps,
        SplitsInto (runes command.length command) gap0 words gaps
          ∧ Fields command = words.map chunkBytes
          ∧ s.executeCommand w command =
            match words with
            | [] => Executed.returned [] [] (some (ExecError.other (ascii "empty command")))
            | word :: others =>
              Executed.returned
                [Effect.run (chunkBytes word) (others.map chunkBytes) (some [])]
                (w.CombinedOutput (chunkBytes word) (others.map chunkBytes) (some [])).1
                (w.CombinedOutput (chunkBytes word) (others.map chunkBytes) (some [])).2) := by
  have hrun : isBlank command = false →
      ∃ name args, Fields command = name :: args
        ∧ s.executeCommand w command
          = Executed.returned [Effect.run name args (some [])]
              (w.CombinedOutput name args (some [])).1
              (w.CombinedOutput name args (some [])).2 := by
    intro hb
    have ht : ¬ TrimSpace command = [] := by rw [TrimSpace_eq_nil]; simp [hb]
    have hf : ¬ Fields command = [] := by rw [Fields_eq_nil]; simp [hb]
    cases hfs : Fields command with
    | nil => exact absurd hfs hf
    | cons name args =>
      refine ⟨name, args, rfl, ?_⟩
      unfold Server.executeCommand
      rw [if_neg ht, hfs]
  have hblank : isBlank command = true → s.executeCommand w command
      = Executed.returned [] [] (some (ExecError.other (ascii "empty command"))) := by
    intro hb
    unfold Server.executeCommand
    rw [if_pos ((TrimSpace_eq_nil command).mpr hb)]
  refine ⟨⟨?_, hblank⟩, hrun, ?_, runes_cover _ _ (le_refl _), ?_⟩
  · intro h
    cases hb : isBlank command with
    | true => rfl
    | false =>
      obtain ⟨name, args, _, hr⟩ := hrun hb
      rw [hr] at h
      simp at h
  · cases hb : isBlank command with
    | true => rw [hblank hb]; simp
    | false =>
      obtain ⟨name, args, _, hr⟩ := hrun hb
      rw [hr]
      simp
  · obtain ⟨gap0, words, gaps, hsp, hf⟩ :=
      (fieldsLoop_splits (runes command.length command)
        (runes_bytes_ne command.length command)).1
    have hF : Fields command = words.map chunkBytes := hf
    refine ⟨gap0, words, gaps, hsp, hF, ?_⟩
    cases words with
    | nil =>
      simp only
      exact hblank ((Fields_eq_nil command).mp (by rw [hF]; rfl))
    | cons word others =>
      simp only
      have hb : isBlank command = false := by
        cases hb : isBlank command with
        | false => rfl
        | true =>
          have := (Fields_eq_nil command).mpr hb
          rw [hF] at this
          simp at this
      obtain ⟨name, args, hfs, hr⟩ := hrun hb
      rw [hF] at hfs
      simp only [List.map_cons, List.cons.injEq] at hfs
      obtain ⟨rfl, rfl⟩ := hfs
      exact hr

/-- C10, witness: `ls -la` between blanks, a tab and a no-break space: the fields are
`ls` and `-la`, and `ls` is run with the one argument `-la`. -/
theorem C10_executeCommand_witness :
    Fields ([0x20] ++ ascii "ls\t-la" ++ [0xC2, 0xA0]) = [ascii "ls", ascii "-la"]
      ∧ ∃ name args, Fields ([0x20] ++ ascii "ls\t-la" ++ [0xC2, 0xA0]) = name :: args
        ∧ (NewServer ⟨SERVER_PORT, API_KEY⟩).executeCommand World.quiet
            ([0x20] ++ ascii "ls\t-la" ++ [0xC2, 0xA0])
          = Executed.returned [Effect.run name args (some [])]
              (World.quiet.CombinedOutput name args (some [])).1
              (World.quiet.CombinedOutput name args (some [])).2 :=
  ⟨by decide,
   (C10_executeCommand (NewServer ⟨SERVER_PORT, API_KEY⟩) World.quiet
    ([0x20] ++ ascii "ls\t-la" ++ [0xC2, 0xA0])).2.1 (by decide)⟩

end RemoteExecuter
